import Mathlib

/-!
Verification of the contextual subgraph engine of `backend/src/core/graph_manager.py`.

The embedding is shallow: node identifiers are `String`; the undirected
`networkx` graph is a list of attributed nodes (in insertion order, the order
`graph.nodes()` iterates) plus a list of attributed edges; Python dicts are
association lists in insertion order; Python floats are modelled as `ℚ` where
the code only adds, multiplies and compares (frequency weights, timestamps)
and as `ℝ` where it takes `exp`/`log` (recency and importance scores).
`datetime.utcnow()` is an implicit input of the code; it is made an explicit
`now : ℚ` argument (seconds) of every operation that reads the clock.
Python's `x or default` (which treats `0`/`None`/`""`/empty collections as
falsy) is modelled exactly, including on integers where `0` is replaced by
the default.
-/

namespace GraphMgr

/-- Python `x or y` on optional strings: `None` and `""` are falsy. -/
def strTruthy : Option String → Option String
  | none => none
  | some s => if s = "" then none else some s

/-- Python `x or default` on the `Optional[int]` parameters of
`build_contextual_subgraph`: both `None` and `0` give the default. -/
def pyOrNat (v : Option Nat) (d : Nat) : Nat :=
  match v with
  | none => d
  | some n => if n = 0 then d else n

/-- The node attributes `graph_manager.py` consults (`data.get(...)`). -/
structure NodeData where
  name : Option String := none
  label : Option String := none
  title : Option String := none
  entity_type : Option String := none
  ntype : Option String := none
  description : Option String := none
  summary : Option String := none
deriving DecidableEq, Repr

/-- The edge attributes `graph_manager.py` consults. -/
structure EdgeData where
  relation : Option String := none
  label : Option String := none
  ntype : Option String := none
  weight : Option ℚ := none
  keywords : Option String := none
deriving DecidableEq, Repr

/-- An undirected `networkx` graph: attributed nodes in insertion order and
attributed edges. -/
structure Graph where
  nodes : List (String × NodeData)
  edges : List (String × String × EdgeData)
deriving DecidableEq, Repr

def emptyGraph : Graph := ⟨[], []⟩

def Graph.nodeIds (g : Graph) : List String := g.nodes.map Prod.fst

/-- Well-formedness of a graph as `networkx` guarantees it: node ids are
unique and every edge endpoint is a node. -/
def Graph.WF (g : Graph) : Prop :=
  g.nodeIds.Nodup ∧ ∀ e ∈ g.edges, e.1 ∈ g.nodeIds ∧ e.2.1 ∈ g.nodeIds

instance (g : Graph) : Decidable g.WF := by
  unfold Graph.WF; infer_instance

/-- The neighbours of `v`: the other endpoint of every edge at `v`. -/
def nbrs (g : Graph) (v : String) : List String :=
  g.edges.foldr
    (fun e acc =>
      if e.1 = v then e.2.1 :: acc else if e.2.1 = v then e.1 :: acc else acc)
    []

/-- Undirected adjacency. -/
def Adj (g : Graph) (u v : String) : Prop := v ∈ nbrs g u

instance (g : Graph) (u v : String) : Decidable (Adj g u v) := by
  unfold Adj; infer_instance

/-- One breadth-first expansion step: a set of nodes together with all their
neighbours. -/
def expand (g : Graph) (s : List String) : List String :=
  (s ++ s.flatMap (nbrs g)).dedup

/-- All nodes within `r` hops of `v` (the node set of `nx.ego_graph(g, v, radius := r)`). -/
def ball (g : Graph) (v : String) (r : Nat) : List String :=
  (expand g)^[r] [v]

/-- All nodes reachable from `v`: `g.nodes.length` expansion steps reach a
fixpoint. -/
def closure (g : Graph) (v : String) : List String :=
  ball g v g.nodes.length

/-- Decidable reachability, used where the code calls into `networkx`
connectivity routines. -/
def reachb (g : Graph) (u v : String) : Bool := v ∈ closure g u

/-- Reachability as `networkx` has it on an undirected graph: both endpoints
are nodes and a chain of edges joins them. -/
def Reach (g : Graph) (u v : String) : Prop :=
  u ∈ g.nodeIds ∧ v ∈ g.nodeIds ∧ Relation.ReflTransGen (Adj g) u v

/-- The first node (in node-insertion order) of `v`'s connected component. -/
def canonRep (g : Graph) (v : String) : String :=
  (g.nodeIds.find? (fun u => reachb g u v)).getD v

/-- `nx.connected_components`: one node set per component, each listed in
node order, components in order of their first node. -/
def componentsOf (g : Graph) : List (List String) :=
  (g.nodeIds.filter (fun v => canonRep g v == v)).map
    (fun v => g.nodeIds.filter (fun u => reachb g v u))

/-- Linear search for the least `r` with `start ≤ r < start + fuel` satisfying `p`. -/
def findFrom (p : Nat → Bool) : Nat → Nat → Option Nat
  | _, 0 => none
  | start, fuel + 1 => if p start then some start else findFrom p (start + 1) fuel

/-- `nx.shortest_path_length` as a partial function: `none` when an endpoint
is missing (`NodeNotFound`) or there is no path (`NetworkXNoPath`). -/
def distOpt (g : Graph) (src dst : String) : Option Nat :=
  if src ∈ g.nodeIds ∧ dst ∈ g.nodeIds then
    findFrom (fun r => decide (dst ∈ ball g src r)) 0 (g.nodes.length + 1)
  else none

/-- Walk a breadth-first shortest path backwards from `cur` (at distance `d`
from `src`) through neighbours of decreasing distance. The `[src]` fallbacks
are dead when `d` is `cur`'s distance from `src`. -/
def buildPath (g : Graph) (src : String) : Nat → String → List String
  | 0, _ => [src]
  | d + 1, cur =>
    match (nbrs g cur).find? (fun w => distOpt g src w == some d) with
    | some w => buildPath g src d w ++ [cur]
    | none => [src]

/-- `_shortest_path_safe`: `nx.shortest_path`, degrading to `[src]` when no
path exists or a node is missing. -/
def shortest_path_safe (g : Graph) (src dst : String) : List String :=
  match distOpt g src dst with
  | some d => buildPath g src d dst
  | none => [src]

/-- `_shortest_path_length_safe`: `nx.shortest_path_length`, degrading to
`math.inf`. -/
def spl_safe (g : Graph) (src dst : String) : WithTop Nat :=
  match distOpt g src dst with
  | some d => (d : WithTop Nat)
  | none => ⊤

/-- Python `min(l, key)`: the first element with minimal key; `none` only for
an empty list (where Python raises). -/
def argminBy (key : String → WithTop Nat) : List String → Option String
  | [] => none
  | x :: xs => some (xs.foldl (fun best y => if key y < key best then y else best) x)

/-- Python `max(l, key)`: the first element with maximal key (components list
is never empty where used). -/
def maxByKey (key : List String → Nat) : List (List String) → List String
  | [] => []
  | x :: xs => xs.foldl (fun best y => if key best < key y then y else best) x

/-- The induced subgraph `g.subgraph(s)` on the node set `s` (ids outside the
graph are ignored, exactly as `networkx` does). -/
def inducedSubgraph (g : Graph) (s : Finset String) : Graph :=
  { nodes := g.nodes.filter (fun nd => decide (nd.1 ∈ s)),
    edges := g.edges.filter (fun e => decide (e.1 ∈ s) && decide (e.2.1 ∈ s)) }

/-- The configuration fields of `core/config.py` that `graph_manager.py` reads,
with their defaults. -/
structure Settings where
  MAX_GRAPH_NODES : Nat
  MAX_HOPS : Nat
  TEMPORAL_DECAY_RATE : ℚ
  ENTITY_FREQUENCY_WEIGHT : ℝ
  RECENCY_WEIGHT : ℝ
  CENTRALITY_WEIGHT : ℝ
  FOCAL_WEIGHT : ℝ

noncomputable def defaultSettings : Settings :=
  { MAX_GRAPH_NODES := 100
    MAX_HOPS := 2
    TEMPORAL_DECAY_RATE := 0.95
    ENTITY_FREQUENCY_WEIGHT := 0.3
    RECENCY_WEIGHT := 0.2
    CENTRALITY_WEIGHT := 0.3
    FOCAL_WEIGHT := 0.2 }

/-- The derived per-node metadata row of `_build_indices`. -/
structure NodeMeta where
  id : String
  label : String
  ntype : String
  description : String
deriving DecidableEq, Repr

/-- `_resolve_label`: display-label precedence name, label, title, node id
(`or` chains, so empty strings fall through). -/
def resolve_label (node_id : String) (data : NodeData) : String :=
  (((strTruthy data.name).orElse fun _ => (strTruthy data.label).orElse fun _ =>
      strTruthy data.title)).getD node_id

/-- Entity-type precedence `entity_type`, `type`, `"ENTITY"`. -/
def resolve_type (data : NodeData) : String :=
  (((strTruthy data.entity_type).orElse fun _ => strTruthy data.ntype)).getD "ENTITY"

/-- Description precedence `description`, `summary`, `""`. -/
def resolve_description (data : NodeData) : String :=
  (((strTruthy data.description).orElse fun _ => strTruthy data.summary)).getD ""

/-- The state of `GraphManager`. `total_queries`, `response_times` and the
`last_*` fields are carried for completeness of `update_conversation_context`. -/
structure GM where
  graph : Graph
  label_index : List (String × List String)
  node_metadata : List (String × NodeMeta)
  entity_frequency : List (String × ℚ)
  entity_last_seen : List (String × ℚ)
  total_queries : Nat
  response_times : List ℚ
  last_entities : List String
  last_query : Option String
  last_response : Option String
  centrality : List (String × ℝ)
  settings : Settings

/-- `defaultdict(set)` bucket update of the label index. -/
def addToBucket : List (String × List String) → String → String → List (String × List String)
  | [], k, v => [(k, [v])]
  | (k', vs) :: rest, k, v =>
    if k' = k then (k', vs ++ [v]) :: rest else (k', vs) :: addToBucket rest k v

/-- `_build_indices`, label half: lower-cased label to the node ids bearing it. -/
def build_label_index (nodes : List (String × NodeData)) : List (String × List String) :=
  nodes.foldl (fun acc nd => addToBucket acc (resolve_label nd.1 nd.2).toLower nd.1) []

/-- `_build_indices`, metadata half. -/
def build_node_metadata (nodes : List (String × NodeData)) : List (String × NodeMeta) :=
  nodes.map (fun nd =>
    (nd.1, { id := nd.1, label := resolve_label nd.1 nd.2, ntype := resolve_type nd.2,
             description := resolve_description nd.2 }))

/-- `_compute_centrality`: an empty graph gives an empty map; otherwise the
result of `nx.pagerank` (or its degree-centrality fallback), an external
collaborator passed in as `alg`. -/
def compute_centrality (alg : Graph → List (String × ℝ)) (g : Graph) : List (String × ℝ) :=
  if g.nodes.length = 0 then [] else alg g

/-- `reload_graph`: `readResult` is what reading the graphml file produced,
`none` both when the path does not exist and when reading raised (the code
logs and falls back to `nx.Graph()` in either case, so the function never
raises). Indices and centrality are rebuilt from the new snapshot. -/
def reload_graph (alg : Graph → List (String × ℝ)) (gm : GM) (readResult : Option Graph) : GM :=
  let g := match readResult with
    | some g => g
    | none => emptyGraph
  { gm with
    graph := g
    label_index := build_label_index g.nodes
    node_metadata := build_node_metadata g.nodes
    centrality := compute_centrality alg g }

/-- `apply_temporal_decay`'s loop body over the frequency dict: multiply every
weight by the decay rate and drop entries that fall below `1e-4`. -/
def decayList (rate : ℚ) : List (String × ℚ) → List (String × ℚ)
  | [] => []
  | (k, v) :: rest =>
    if v * rate < 1e-4 then decayList rate rest else (k, v * rate) :: decayList rate rest

/-- `apply_temporal_decay` (the early return on an empty dict changes nothing
but is kept faithfully). -/
def apply_temporal_decay (gm : GM) : GM :=
  if gm.entity_frequency = [] then gm
  else { gm with
         entity_frequency := decayList gm.settings.TEMPORAL_DECAY_RATE gm.entity_frequency }

/-- `defaultdict(float)` increment `self.entity_frequency[entity] += 1.0`. -/
def bumpFreq : List (String × ℚ) → String → List (String × ℚ)
  | [], e => [(e, 1)]
  | (k, v) :: rest, e =>
    if k = e then (k, v + 1) :: rest else (k, v) :: bumpFreq rest e

/-- Dict assignment `self.entity_last_seen[entity] = now`. -/
def setSeen : List (String × ℚ) → String → ℚ → List (String × ℚ)
  | [], e, t => [(e, t)]
  | (k, v) :: rest, e, t =>
    if k = e then (k, t) :: rest else (k, v) :: setSeen rest e t

/-- `update_conversation_context`: decay first, then bump each mentioned
entity by `+1.0` and stamp its last-seen time (`now` is the `utcnow()` the
code reads). -/
def update_conversation_context (gm : GM) (query response : String)
    (entities : List String) (response_time : ℚ) (now : ℚ) : GM :=
  let ents := entities.dedup
  let gm1 := apply_temporal_decay gm
  { gm1 with
    entity_frequency := ents.foldl bumpFreq gm1.entity_frequency
    entity_last_seen := ents.foldl (fun m e => setSeen m e now) gm1.entity_last_seen
    last_entities := ents
    last_query := some query
    last_response := some response
    total_queries := gm1.total_queries + 1
    response_times := gm1.response_times ++ [response_time] }

/-- `_recency_score` at clock reading `now` (seconds): `exp(-λ·Δh)` with
`λ = -ln(max(rate, 1e-6))`, `0` for a node never seen. -/
noncomputable def recency_score (gm : GM) (now : ℚ) (node_id : String) : ℝ :=
  match gm.entity_last_seen.lookup node_id with
  | none => 0
  | some ts =>
    let delta_hours : ℚ := max ((now - ts) / 3600) 0
    let decay_rate : ℝ := -Real.log (max (gm.settings.TEMPORAL_DECAY_RATE : ℝ) 1e-6)
    Real.exp (-decay_rate * (delta_hours : ℝ))

/-- `max(self.entity_frequency.values()) if self.entity_frequency else 1.0`. -/
def maxFreqOf (freq : List (String × ℚ)) : ℚ :=
  match freq.map Prod.snd with
  | [] => 1
  | v :: vs => vs.foldl max v

/-- `calculate_node_importance`: the four-component weighted sum. -/
noncomputable def calculate_node_importance (gm : GM) (now : ℚ) (node_id : String)
    (focal_entities : List String) : ℝ :=
  let freq : ℚ := (gm.entity_frequency.lookup node_id).getD 0
  let max_freq : ℚ := maxFreqOf gm.entity_frequency
  let freq_score : ℚ := if max_freq = 0 then 0 else freq / max_freq
  let centrality_score : ℝ := (gm.centrality.lookup node_id).getD 0
  let focal_score : ℝ := if node_id ∈ focal_entities then 1 else 0
  gm.settings.ENTITY_FREQUENCY_WEIGHT * (freq_score : ℝ)
    + gm.settings.RECENCY_WEIGHT * recency_score gm now node_id
    + gm.settings.CENTRALITY_WEIGHT * centrality_score
    + gm.settings.FOCAL_WEIGHT * focal_score

/-- The fallback ordering `sorted(nodes, key=centrality, reverse=True)`:
stable descending sort by centrality. -/
noncomputable def sortByCentralityDesc (cent : List (String × ℝ)) (ids : List String) :
    List String :=
  ids.mergeSort (fun a b => decide ((cent.lookup b).getD 0 ≤ (cent.lookup a).getD 0))

/-- The candidate set of `build_contextual_subgraph`: ego expansion around
each focal entity present in the graph, else the `maxNodes` most central
nodes. -/
noncomputable def candidateNodes (gm : GM) (maxHops maxNodes : Nat)
    (focal_entities : List String) : List String :=
  let cands := focal_entities.foldl
    (fun acc entity =>
      if entity ∈ gm.graph.nodeIds then (acc ++ ball gm.graph entity maxHops).dedup else acc)
    []
  if cands = [] then (sortByCentralityDesc gm.centrality gm.graph.nodeIds).take maxNodes
  else cands

/-- The selected node set before connectivity repair: candidates scored and
stably sorted descending by importance, truncated to `maxNodes`, with the
whole focal set force-added when it is non-empty. -/
noncomputable def initialSelection (gm : GM) (now : ℚ) (focal_entities : List String)
    (maxHops maxNodes : Nat) : Finset String :=
  let scored := (candidateNodes gm maxHops maxNodes focal_entities).map
    (fun node => (node, calculate_node_importance gm now node focal_entities))
  let sorted := scored.mergeSort (fun a b => decide (b.2 ≤ a.2))
  let selected := ((sorted.take maxNodes).map Prod.fst).toFinset
  if focal_entities = [] then selected else selected ∪ focal_entities.toFinset

/-- The inner loop of `_ensure_connectivity`: add the path nodes one by one,
returning early (flag `true`) as soon as the budget is reached. -/
def addPath (maxNodes : Nat) : List String → Finset String → Finset String × Bool
  | [], sel => (sel, false)
  | node :: rest, sel =>
    let sel' := insert node sel
    if maxNodes ≤ sel'.card then (sel', true) else addPath maxNodes rest sel'

/-- The outer loop of `_ensure_connectivity`: stitch every non-base component
towards its structurally closest focal entity, stopping altogether when the
budget is hit. -/
def stitchComps (g : Graph) (focal : List String) (maxNodes : Nat) (base : List String) :
    List (List String) → Finset String → Finset String
  | [], sel => sel
  | comp :: rest, sel =>
    if comp = base then stitchComps g focal maxNodes base rest sel
    else
      match comp with
      | [] => stitchComps g focal maxNodes base rest sel
      | source :: _ =>
        match argminBy (fun f => spl_safe g source f) focal with
        | none => stitchComps g focal maxNodes base rest sel
        | some target =>
          let out := addPath maxNodes (shortest_path_safe g source target) sel
          if out.2 then out.1 else stitchComps g focal maxNodes base rest out.1

/-- `_ensure_connectivity`, returning the (possibly grown) selected set; the
Python mutates `selected_nodes` in place. -/
def ensure_connectivity (g : Graph) (subgraph : Graph) (selected : Finset String)
    (focal_entities : List String) (maxNodes : Nat) : Finset String :=
  if focal_entities = [] then selected
  else
    let components := componentsOf subgraph
    if components.length ≤ 1 then selected
    else
      let focal := focal_entities.filter (fun node => decide (node ∈ g.nodeIds))
      if focal = [] then selected
      else
        let base := maxByKey
          (fun comp => (comp.filter (fun v => decide (v ∈ focal_entities))).length) components
        stitchComps g focal maxNodes base components selected

/-- `build_contextual_subgraph` at clock reading `now`; `max_hops`/`max_nodes`
are the keyword arguments (`None` when omitted). -/
noncomputable def build_contextual_subgraph (gm : GM) (now : ℚ) (focal_entities : List String)
    (max_hops max_nodes : Option Nat) : Graph :=
  if gm.graph.nodes.length = 0 then emptyGraph
  else
    let maxHops := pyOrNat max_hops gm.settings.MAX_HOPS
    let maxNodes := pyOrNat max_nodes gm.settings.MAX_GRAPH_NODES
    let selected := initialSelection gm now focal_entities maxHops maxNodes
    let subgraph := inducedSubgraph gm.graph selected
    let final := ensure_connectivity gm.graph subgraph selected focal_entities maxNodes
    inducedSubgraph gm.graph final

/-- One row of the `nodes` payload of `graph_to_vis_format`. -/
structure VisNode where
  id : String
  label : String
  ntype : String
  description : String
  frequency : ℚ
  is_focal : Bool
  size : ℝ
  color : String
  centrality : ℝ

/-- One row of the `links` payload. -/
structure VisLink where
  source : String
  target : String
  relationship : String
  weight : ℚ
  keywords : String

structure VisPayload where
  nodes : List VisNode
  links : List VisLink

/-- The fixed `ENTITY_COLORS` palette with its default. -/
def entityColor (t : String) : String :=
  if t = "PERSON" then "#1f77b4"
  else if t = "ORG" then "#ff7f0e"
  else if t = "EVENT" then "#2ca02c"
  else if t = "PLACE" then "#9467bd"
  else if t = "WORK" then "#8c564b"
  else if t = "DATE" then "#17becf"
  else "#4a5568"

/-- `graph_to_vis_format` at clock reading `now` (sizes recompute importance,
scaled by the maximum importance in the subgraph, `or 1.0`). -/
noncomputable def graph_to_vis_format (gm : GM) (now : ℚ) (subgraph : Graph)
    (focal_entities : List String) : VisPayload :=
  let importance := fun node =>
    calculate_node_importance gm now node focal_entities
  let max_importance : ℝ :=
    (subgraph.nodes.map (fun nd => importance nd.1)).foldl max 0
  let scaling : ℝ := if max_importance = 0 then 1 else max_importance
  { nodes := subgraph.nodes.map (fun nd =>
      let meta := gm.node_metadata.lookup nd.1
      let label := match meta with
        | some m => if m.label = "" then resolve_label nd.1 nd.2 else m.label
        | none => resolve_label nd.1 nd.2
      let node_type := match meta with
        | some m => m.ntype
        | none => "ENTITY"
      { id := nd.1
        label := label
        ntype := node_type
        description := match meta with
          | some m => m.description
          | none => ""
        frequency := (gm.entity_frequency.lookup nd.1).getD 0
        is_focal := decide (nd.1 ∈ focal_entities)
        size := 8 + (importance nd.1 / scaling) * 20
        color := entityColor node_type.toUpper
        centrality := (gm.centrality.lookup nd.1).getD 0 })
    links := subgraph.edges.map (fun e =>
      { source := e.1
        target := e.2.1
        relationship :=
          (((strTruthy e.2.2.relation).orElse fun _ => (strTruthy e.2.2.label).orElse fun _ =>
              strTruthy e.2.2.ntype)).getD "related"
        weight := (e.2.2.weight).getD 1
        keywords := (e.2.2.keywords).getD "" }) }

section BasicGraphLemmas

lemma mem_foldr_nbrs (es : List (String × String × EdgeData)) (v x : String) :
    x ∈ es.foldr
        (fun e acc =>
          if e.1 = v then e.2.1 :: acc else if e.2.1 = v then e.1 :: acc else acc)
        [] ↔
      ∃ e ∈ es, (e.1 = v ∧ e.2.1 = x) ∨ (e.2.1 = v ∧ e.1 = x) := by
  induction es with
  | nil => simp
  | cons e es ih =>
    simp only [List.foldr_cons]
    by_cases h1 : e.1 = v
    · simp only [if_pos h1, List.mem_cons, ih]
      aesop
    · by_cases h2 : e.2.1 = v
      · simp only [if_neg h1, if_pos h2, List.mem_cons, ih]
        aesop
      · simp only [if_neg h1, if_neg h2, ih]
        aesop

lemma mem_nbrs {g : Graph} {v x : String} :
    x ∈ nbrs g v ↔ ∃ e ∈ g.edges, (e.1 = v ∧ e.2.1 = x) ∨ (e.2.1 = v ∧ e.1 = x) :=
  mem_foldr_nbrs g.edges v x

lemma adj_symm {g : Graph} {u v : String} (h : Adj g u v) : Adj g v u := by
  unfold Adj at *
  rcases mem_nbrs.1 h with ⟨e, he, ⟨h1, h2⟩ | ⟨h1, h2⟩⟩
  · exact mem_nbrs.2 ⟨e, he, Or.inr ⟨h2, h1⟩⟩
  · exact mem_nbrs.2 ⟨e, he, Or.inl ⟨h2, h1⟩⟩

lemma mem_nodeIds_of_adj {g : Graph} (hWF : g.WF) {u v : String} (h : Adj g u v) :
    u ∈ g.nodeIds ∧ v ∈ g.nodeIds := by
  rcases mem_nbrs.1 h with ⟨e, he, ⟨h1, h2⟩ | ⟨h1, h2⟩⟩
  · obtain ⟨ha, hb⟩ := hWF.2 e he
    exact ⟨h1 ▸ ha, h2 ▸ hb⟩
  · obtain ⟨ha, hb⟩ := hWF.2 e he
    exact ⟨h1 ▸ hb, h2 ▸ ha⟩

lemma mem_expand {g : Graph} {s : List String} {x : String} :
    x ∈ expand g s ↔ x ∈ s ∨ ∃ w ∈ s, Adj g w x := by
  simp [expand, Adj, List.mem_dedup, List.mem_append, List.mem_flatMap]

lemma subset_expand {g : Graph} {s : List String} : s ⊆ expand g s := fun _ hx =>
  mem_expand.2 (Or.inl hx)

lemma expand_mono {g : Graph} {s t : List String} (h : s ⊆ t) : expand g s ⊆ expand g t := by
  intro x hx
  rcases mem_expand.1 hx with hx | ⟨w, hw, ha⟩
  · exact mem_expand.2 (Or.inl (h hx))
  · exact mem_expand.2 (Or.inr ⟨w, h hw, ha⟩)

lemma expand_subset_nodeIds {g : Graph} (hWF : g.WF) {s : List String}
    (hs : s ⊆ g.nodeIds) : expand g s ⊆ g.nodeIds := by
  intro x hx
  rcases mem_expand.1 hx with hx | ⟨w, _, ha⟩
  · exact hs hx
  · exact (mem_nodeIds_of_adj hWF ha).2

lemma expand_nodup {g : Graph} {s : List String} : (expand g s).Nodup := List.nodup_dedup _

lemma ball_zero {g : Graph} {v : String} : ball g v 0 = [v] := rfl

lemma ball_succ {g : Graph} {v : String} {r : Nat} :
    ball g v (r + 1) = expand g (ball g v r) :=
  Function.iterate_succ_apply' (expand g) r [v]

lemma ball_nodup {g : Graph} {v : String} {r : Nat} : (ball g v r).Nodup := by
  cases r with
  | zero => simp [ball_zero]
  | succ r => rw [ball_succ]; exact expand_nodup

lemma ball_subset_succ {g : Graph} {v : String} {r : Nat} : ball g v r ⊆ ball g v (r + 1) := by
  rw [ball_succ]; exact subset_expand

lemma ball_mono {g : Graph} {v : String} {r r' : Nat} (h : r ≤ r') :
    ball g v r ⊆ ball g v r' := by
  induction r' with
  | zero =>
    have : r = 0 := by omega
    subst this
    exact fun x hx => hx
  | succ r' ih =>
    rcases Nat.lt_or_ge r (r' + 1) with hlt | hge
    · exact fun x hx => ball_subset_succ (ih (by omega) hx)
    · have : r = r' + 1 := by omega
      subst this
      exact fun x hx => hx

lemma self_mem_ball {g : Graph} {v : String} {r : Nat} : v ∈ ball g v r :=
  ball_mono (Nat.zero_le r) (by simp [ball_zero])

lemma ball_subset_nodeIds {g : Graph} (hWF : g.WF) {v : String} (hv : v ∈ g.nodeIds)
    {r : Nat} : ball g v r ⊆ g.nodeIds := by
  induction r with
  | zero => intro x hx; simp [ball_zero] at hx; exact hx ▸ hv
  | succ r ih => rw [ball_succ]; exact expand_subset_nodeIds hWF ih

lemma length_le_of_nodup_subset {l₁ l₂ : List String} (h₁ : l₁.Nodup) (h₂ : l₂.Nodup)
    (hs : l₁ ⊆ l₂) : l₁.length ≤ l₂.length := by
  have c1 : l₁.toFinset.card = l₁.length := List.toFinset_card_of_nodup h₁
  have c2 : l₂.toFinset.card = l₂.length := List.toFinset_card_of_nodup h₂
  have hsub : l₁.toFinset ⊆ l₂.toFinset := by
    intro x hx
    simp only [List.mem_toFinset] at hx ⊢
    exact hs hx
  have := Finset.card_le_card hsub
  omega

lemma length_lt_of_nodup_ssubset {l₁ l₂ : List String} (h₁ : l₁.Nodup) (h₂ : l₂.Nodup)
    (hs : l₁ ⊆ l₂) {x : String} (hx : x ∈ l₂) (hnx : x ∉ l₁) :
    l₁.length + 1 ≤ l₂.length := by
  have c1 : l₁.toFinset.card = l₁.length := List.toFinset_card_of_nodup h₁
  have c2 : l₂.toFinset.card = l₂.length := List.toFinset_card_of_nodup h₂
  have hsub : insert x l₁.toFinset ⊆ l₂.toFinset := by
    intro y hy
    rcases Finset.mem_insert.1 hy with rfl | hy
    · exact List.mem_toFinset.2 hx
    · exact List.mem_toFinset.2 (hs (List.mem_toFinset.1 hy))
  have hcard : (insert x l₁.toFinset).card = l₁.toFinset.card + 1 :=
    Finset.card_insert_of_not_mem (by simpa using hnx)
  have := Finset.card_le_card hsub
  omega

end BasicGraphLemmas

section ClosureLemmas

/-- Each ball is either already expansion-closed or holds at least `k + 1`
distinct nodes. -/
lemma ball_closed_or_large {g : Graph} {v : String} (k : Nat) :
    expand g (ball g v k) ⊆ ball g v k ∨ k + 1 ≤ (ball g v k).length := by
  induction k with
  | zero => right; simp [ball_zero]
  | succ k ih =>
    rcases ih with hcl | hlen
    · left
      rw [ball_succ]
      exact expand_mono hcl
    · by_cases hsub : ∀ x ∈ ball g v (k + 1), x ∈ ball g v k
      · left
        have hsub' : expand g (ball g v k) ⊆ ball g v k := by
          intro x hx
          exact hsub x (by rw [ball_succ]; exact hx)
        rw [ball_succ]
        exact expand_mono hsub'
      · right
        push_neg at hsub
        obtain ⟨x, hx, hnx⟩ := hsub
        have := length_lt_of_nodup_ssubset (ball_nodup (r := k)) (ball_nodup (r := k + 1))
          ball_subset_succ hx hnx
        omega

lemma expand_closure_subset {g : Graph} (hWF : g.WF) {v : String} (hv : v ∈ g.nodeIds) :
    expand g (closure g v) ⊆ closure g v := by
  rcases ball_closed_or_large (g := g) (v := v) g.nodes.length with h | h
  · exact h
  · exfalso
    have hsub : ball g v g.nodes.length ⊆ g.nodeIds := ball_subset_nodeIds hWF hv
    have hlen := length_le_of_nodup_subset ball_nodup hWF.1 hsub
    have : g.nodeIds.length = g.nodes.length := List.length_map _ _
    omega

lemma mem_closure_self {g : Graph} {v : String} : v ∈ closure g v := self_mem_ball

lemma ball_sound {g : Graph} {v : String} :
    ∀ {r x}, x ∈ ball g v r → Relation.ReflTransGen (Adj g) v x := by
  intro r
  induction r with
  | zero =>
    intro x hx
    simp [ball_zero] at hx
    exact hx ▸ Relation.ReflTransGen.refl
  | succ r ih =>
    intro x hx
    rw [ball_succ] at hx
    rcases mem_expand.1 hx with hx | ⟨w, hw, ha⟩
    · exact ih hx
    · exact (ih hw).tail ha

lemma closure_sound {g : Graph} (hWF : g.WF) {v x : String} (hv : v ∈ g.nodeIds)
    (hx : x ∈ closure g v) : Reach g v x :=
  ⟨hv, ball_subset_nodeIds hWF hv hx, ball_sound hx⟩

lemma closure_complete {g : Graph} (hWF : g.WF) {v x : String} (hv : v ∈ g.nodeIds)
    (h : Relation.ReflTransGen (Adj g) v x) : x ∈ closure g v := by
  induction h with
  | refl => exact mem_closure_self
  | tail hab hbc ih =>
    exact expand_closure_subset hWF hv (mem_expand.2 (Or.inr ⟨_, ih, hbc⟩))

lemma reachb_iff {g : Graph} (hWF : g.WF) {u v : String} (hu : u ∈ g.nodeIds) :
    reachb g u v = true ↔ Reach g u v := by
  unfold reachb
  constructor
  · intro h
    exact closure_sound hWF hu (by simpa using h)
  · rintro ⟨_, _, hr⟩
    simpa using closure_complete hWF hu hr

lemma reach_refl {g : Graph} {v : String} (hv : v ∈ g.nodeIds) : Reach g v v :=
  ⟨hv, hv, Relation.ReflTransGen.refl⟩

lemma reach_symm {g : Graph} {u v : String} (h : Reach g u v) : Reach g v u :=
  ⟨h.2.1, h.1, Relation.ReflTransGen.symmetric (fun _ _ hab => adj_symm hab) h.2.2⟩

lemma reach_trans {g : Graph} {u v w : String} (h1 : Reach g u v) (h2 : Reach g v w) :
    Reach g u w :=
  ⟨h1.1, h2.2.1, h1.2.2.trans h2.2.2⟩

lemma reach_mono {g g' : Graph} (hn : ∀ x ∈ g.nodeIds, x ∈ g'.nodeIds)
    (hadj : ∀ u v, Adj g u v → Adj g' u v) {u v : String} (h : Reach g u v) :
    Reach g' u v :=
  ⟨hn _ h.1, hn _ h.2.1, Relation.ReflTransGen.mono hadj h.2.2⟩

end ClosureLemmas

section CanonLemmas

lemma find?_congr_list {α : Type} {p q : α → Bool} :
    ∀ {l : List α}, (∀ x ∈ l, p x = q x) → l.find? p = l.find? q := by
  intro l
  induction l with
  | nil => intro _; rfl
  | cons a l ih =>
    intro h
    have ha := h a (List.mem_cons_self a l)
    by_cases hp : p a = true
    · rw [List.find?_cons_of_pos _ hp, List.find?_cons_of_pos _ (ha ▸ hp)]
    · have hq : ¬ q a = true := fun hq => hp (ha ▸ hq)
      rw [List.find?_cons_of_neg _ (by simpa using hp), List.find?_cons_of_neg _ (by simpa using hq)]
      exact ih (fun x hx => h x (List.mem_cons_of_mem a hx))

lemma canonRep_spec {g : Graph} (hWF : g.WF) {v : String} (hv : v ∈ g.nodeIds) :
    canonRep g v ∈ g.nodeIds ∧ Reach g (canonRep g v) v := by
  unfold canonRep
  have hself : reachb g v v = true := by
    unfold reachb
    simpa using mem_closure_self
  have hsome : (g.nodeIds.find? (fun u => reachb g u v)).isSome :=
    List.find?_isSome.2 ⟨v, hv, hself⟩
  cases hfind : g.nodeIds.find? (fun u => reachb g u v) with
  | none => rw [hfind] at hsome; simp at hsome
  | some u =>
    have hu : u ∈ g.nodeIds := List.mem_of_find?_eq_some hfind
    have hp : reachb g u v = true := by simpa using List.find?_some hfind
    simpa using ⟨hu, (reachb_iff hWF hu).1 hp⟩

lemma canonRep_eq_of_reach {g : Graph} (hWF : g.WF) {u v : String} (h : Reach g u v) :
    canonRep g u = canonRep g v := by
  unfold canonRep
  have hcongr : g.nodeIds.find? (fun w => reachb g w u) =
      g.nodeIds.find? (fun w => reachb g w v) := by
    apply find?_congr_list
    intro w hw
    have hiff : Reach g w u ↔ Reach g w v :=
      ⟨fun hr => reach_trans hr h, fun hr => reach_trans hr (reach_symm h)⟩
    apply Bool.eq_iff_iff.2
    rw [reachb_iff hWF hw, reachb_iff hWF hw]
    exact hiff
  have hself : reachb g u u = true := by
    unfold reachb
    simpa using mem_closure_self
  have hsome : (g.nodeIds.find? (fun w => reachb g w u)).isSome :=
    List.find?_isSome.2 ⟨u, h.1, hself⟩
  cases hfind : g.nodeIds.find? (fun w => reachb g w u) with
  | none => rw [hfind] at hsome; simp at hsome
  | some w =>
    rw [hcongr] at hfind
    rw [hfind]
    simp

lemma canonRep_idem {g : Graph} (hWF : g.WF) {v : String} (hv : v ∈ g.nodeIds) :
    canonRep g (canonRep g v) = canonRep g v :=
  canonRep_eq_of_reach hWF (canonRep_spec hWF hv).2

end CanonLemmas

section ComponentLemmas

/-- The canonical (first-in-order) representatives of the components. -/
def canonFinset (g : Graph) : Finset String :=
  g.nodeIds.toFinset.filter (fun v => canonRep g v = v)

lemma componentsOf_length (g : Graph) :
    (componentsOf g).length = (g.nodeIds.filter (fun v => canonRep g v == v)).length := by
  simp [componentsOf]

lemma mem_comp_subset {g : Graph} {c : List String} (hc : c ∈ componentsOf g) :
    ∀ x ∈ c, x ∈ g.nodeIds := by
  unfold componentsOf at hc
  obtain ⟨v, _, rfl⟩ := List.mem_map.1 hc
  intro x hx
  exact List.mem_of_mem_filter hx

lemma componentsOf_length_eq_card {g : Graph} (hnd : g.nodeIds.Nodup) :
    (componentsOf g).length = (canonFinset g).card := by
  rw [componentsOf_length]
  have h1 : (g.nodeIds.filter (fun v => canonRep g v == v)).toFinset.card
      = (g.nodeIds.filter (fun v => canonRep g v == v)).length :=
    List.toFinset_card_of_nodup (hnd.filter _)
  rw [List.toFinset_filter] at h1
  unfold canonFinset
  rw [← h1]
  congr 1
  apply Finset.filter_congr
  intro x _
  simp [beq_iff_eq]

lemma cc_getD_spec {g g' : Graph} (hWF' : g'.WF) {r : String} (hr : r ∈ g'.nodeIds)
    (hex : ∃ y ∈ g.nodeIds, Reach g' r y) :
    ∃ y, (g.nodeIds.find? (fun y => reachb g' r y)).getD r = y ∧
      y ∈ g.nodeIds ∧ Reach g' r y := by
  obtain ⟨y₀, hy₀, hre⟩ := hex
  have hb : reachb g' r y₀ = true := (reachb_iff hWF' hr).2 hre
  have hsome : (g.nodeIds.find? (fun y => reachb g' r y)).isSome :=
    List.find?_isSome.2 ⟨y₀, hy₀, hb⟩
  cases hfind : g.nodeIds.find? (fun y => reachb g' r y) with
  | none => rw [hfind] at hsome; simp at hsome
  | some y =>
    refine ⟨y, by simp, List.mem_of_find?_eq_some hfind, ?_⟩
    have := List.find?_some hfind
    exact (reachb_iff hWF' hr).1 (by simpa using this)

/-- The component-count comparison behind connectivity repair: if `g'` extends
`g` and every `g'`-node is `g'`-connected to some `g`-node, `g'` has at most
as many components as `g`. -/
lemma comp_count_le {g g' : Graph} (hWF : g.WF) (hWF' : g'.WF)
    (hn : ∀ x ∈ g.nodeIds, x ∈ g'.nodeIds)
    (hadj : ∀ u v, Adj g u v → Adj g' u v)
    (hcov : ∀ x ∈ g'.nodeIds, ∃ y ∈ g.nodeIds, Reach g' x y) :
    (componentsOf g').length ≤ (componentsOf g).length := by
  rw [componentsOf_length_eq_card hWF'.1, componentsOf_length_eq_card hWF.1]
  apply Finset.card_le_card_of_injOn
    (fun r => canonRep g ((g.nodeIds.find? (fun y => reachb g' r y)).getD r))
  · intro r hr
    have hr1 : r ∈ g'.nodeIds := by
      have := (Finset.mem_filter.1 hr).1
      simpa using this
    obtain ⟨y, hy, hymem, _⟩ := cc_getD_spec hWF' hr1 (hcov r hr1)
    rw [hy]
    unfold canonFinset
    refine Finset.mem_filter.2 ⟨?_, canonRep_idem hWF hymem⟩
    simpa using (canonRep_spec hWF hymem).1
  · intro r₁ h₁ r₂ h₂ heq
    obtain ⟨hm₁, hc₁⟩ := Finset.mem_filter.1 (Finset.mem_coe.1 h₁)
    obtain ⟨hm₂, hc₂⟩ := Finset.mem_filter.1 (Finset.mem_coe.1 h₂)
    have hr₁ : r₁ ∈ g'.nodeIds := by simpa using hm₁
    have hr₂ : r₂ ∈ g'.nodeIds := by simpa using hm₂
    obtain ⟨y₁, hy₁, hy₁mem, hre₁⟩ := cc_getD_spec hWF' hr₁ (hcov r₁ hr₁)
    obtain ⟨y₂, hy₂, hy₂mem, hre₂⟩ := cc_getD_spec hWF' hr₂ (hcov r₂ hr₂)
    simp only [] at heq
    rw [hy₁, hy₂] at heq
    have hcan₁ : Reach g y₁ (canonRep g y₁) := reach_symm (canonRep_spec hWF hy₁mem).2
    have hcan₂ : Reach g (canonRep g y₂) y₂ := (canonRep_spec hWF hy₂mem).2
    have hy₁y₂ : Reach g y₁ y₂ := reach_trans hcan₁ (heq ▸ hcan₂)
    have hy₁y₂' : Reach g' y₁ y₂ := reach_mono hn hadj hy₁y₂
    have hr₁r₂ : Reach g' r₁ r₂ :=
      reach_trans hre₁ (reach_trans hy₁y₂' (reach_symm hre₂))
    have := canonRep_eq_of_reach hWF' hr₁r₂
    rw [hc₁, hc₂] at this
    exact this

end ComponentLemmas

section PathLemmas

lemma findFrom_eq_some_spec {p : Nat → Bool} :
    ∀ {fuel start r}, findFrom p start fuel = some r →
      p r = true ∧ start ≤ r ∧ ∀ i, start ≤ i → i < r → p i = false := by
  intro fuel
  induction fuel with
  | zero => intro start r h; simp [findFrom] at h
  | succ fuel ih =>
    intro start r h
    unfold findFrom at h
    by_cases hp : p start = true
    · rw [if_pos hp] at h
      injection h with h
      subst h
      exact ⟨hp, le_refl _, fun i h1 h2 => absurd (lt_of_le_of_lt h1 h2) (lt_irrefl _)⟩
    · rw [if_neg hp] at h
      obtain ⟨hpr, hle, hmin⟩ := ih h
      refine ⟨hpr, by omega, fun i h1 h2 => ?_⟩
      rcases Nat.eq_or_lt_of_le h1 with rfl | hlt
      · exact Bool.eq_false_iff.2 hp
      · exact hmin i (by omega) h2

lemma findFrom_eq_none_spec {p : Nat → Bool} :
    ∀ {fuel start}, findFrom p start fuel = none →
      ∀ i, start ≤ i → i < start + fuel → p i = false := by
  intro fuel
  induction fuel with
  | zero => intro start _ i h1 h2; omega
  | succ fuel ih =>
    intro start h i h1 h2
    unfold findFrom at h
    by_cases hp : p start = true
    · rw [if_pos hp] at h; cases h
    · rw [if_neg hp] at h
      rcases Nat.eq_or_lt_of_le h1 with rfl | hlt
      · exact Bool.eq_false_iff.2 hp
      · exact ih h i (by omega) (by omega)

lemma distOpt_some_spec {g : Graph} {src dst : String} {d : Nat}
    (h : distOpt g src dst = some d) :
    src ∈ g.nodeIds ∧ dst ∈ g.nodeIds ∧ dst ∈ ball g src d ∧
      ∀ i, i < d → dst ∉ ball g src i := by
  unfold distOpt at h
  by_cases hmem : src ∈ g.nodeIds ∧ dst ∈ g.nodeIds
  · rw [if_pos hmem] at h
    obtain ⟨hp, _, hmin⟩ := findFrom_eq_some_spec h
    refine ⟨hmem.1, hmem.2, by simpa using hp, fun i hi hcon => ?_⟩
    have := hmin i (Nat.zero_le i) hi
    simp at this
    exact this hcon
  · rw [if_neg hmem] at h; cases h

lemma ball_stabilizes {g : Graph} {v : String} {k : Nat}
    (h : ball g v (k + 1) ⊆ ball g v k) :
    ∀ m, ball g v (k + m) ⊆ ball g v k := by
  intro m
  induction m with
  | zero => exact fun x hx => hx
  | succ m ih =>
    intro x hx
    rw [show k + (m + 1) = (k + m) + 1 by omega, ball_succ] at hx
    refine h ?_
    rw [ball_succ]
    exact expand_mono ih hx

lemma ball_growth {g : Graph} {src dst : String} {d : Nat}
    (hball : dst ∈ ball g src d) (hmin : ∀ i, i < d → dst ∉ ball g src i) :
    ∀ k, k ≤ d → k + 1 ≤ (ball g src k).length := by
  intro k
  induction k with
  | zero => intro _; simp [ball_zero]
  | succ k ih =>
    intro hkd
    have hk := ih (by omega)
    by_cases hsub : ∀ x ∈ ball g src (k + 1), x ∈ ball g src k
    · exfalso
      have hstab := ball_stabilizes hsub (d - k)
      rw [show k + (d - k) = d by omega] at hstab
      exact hmin k (by omega) (hstab hball)
    · push_neg at hsub
      obtain ⟨x, hx, hnx⟩ := hsub
      have := length_lt_of_nodup_ssubset (ball_nodup (r := k)) (ball_nodup (r := k + 1))
        ball_subset_succ hx hnx
      omega

lemma distOpt_isSome_of_mem_ball {g : Graph} (hWF : g.WF) {src w : String}
    (hs : src ∈ g.nodeIds) (hw : w ∈ g.nodeIds) {e : Nat} (he : e ≤ g.nodes.length)
    (hball : w ∈ ball g src e) : ∃ d, distOpt g src w = some d := by
  cases hd : distOpt g src w with
  | some d => exact ⟨d, rfl⟩
  | none =>
    exfalso
    unfold distOpt at hd
    rw [if_pos ⟨hs, hw⟩] at hd
    have := findFrom_eq_none_spec hd e (Nat.zero_le e) (by omega)
    simp at this
    exact this hball

lemma buildPath_spec {g : Graph} (hWF : g.WF) {src : String} :
    ∀ d cur, distOpt g src cur = some d →
      (buildPath g src d cur).head? = some src ∧
      (buildPath g src d cur).getLast? = some cur ∧
      List.Chain' (Adj g) (buildPath g src d cur) := by
  intro d
  induction d with
  | zero =>
    intro cur h
    obtain ⟨hs, hc, hball, _⟩ := distOpt_some_spec h
    have : cur = src := by simpa [ball_zero] using hball
    subst this
    exact ⟨rfl, rfl, List.chain'_singleton _⟩
  | succ d ih =>
    intro cur h
    obtain ⟨hs, hc, hball, hmin⟩ := distOpt_some_spec h
    have hnot : cur ∉ ball g src d := hmin d (by omega)
    have hN : (ball g src (d + 1)).length ≤ g.nodes.length := by
      have h1 := length_le_of_nodup_subset (ball_nodup (r := d + 1)) hWF.1
        (ball_subset_nodeIds hWF hs)
      have h2 : g.nodeIds.length = g.nodes.length := List.length_map _ _
      omega
    have hdN : d ≤ g.nodes.length := by
      have := ball_growth hball hmin (d + 1) (le_refl _)
      omega
    have hball' := hball
    rw [ball_succ] at hball'
    rcases mem_expand.1 hball' with hmem | ⟨w, hw, hadj⟩
    · exact absurd hmem hnot
    · have hwids : w ∈ g.nodeIds := ball_subset_nodeIds hWF hs hw
      obtain ⟨e, he⟩ := distOpt_isSome_of_mem_ball hWF hs hwids hdN hw
      obtain ⟨_, _, heball, hemin⟩ := distOpt_some_spec he
      have hed : e ≤ d := by
        by_contra hlt
        push_neg at hlt
        exact hemin d hlt hw
      have hede : e = d := by
        by_contra hne
        have helt : e < d := by omega
        have hcurb : cur ∈ ball g src (e + 1) := by
          rw [ball_succ]
          exact mem_expand.2 (Or.inr ⟨w, heball, hadj⟩)
        exact hnot (ball_mono (by omega) hcurb)
      subst hede
      have hwadj : w ∈ nbrs g cur := adj_symm hadj
      have hpred : (distOpt g src w == some e) = true := by simp [he]
      have hsome : ((nbrs g cur).find? (fun x => distOpt g src x == some e)).isSome :=
        List.find?_isSome.2 ⟨w, hwadj, hpred⟩
      cases hfind : (nbrs g cur).find? (fun x => distOpt g src x == some e) with
      | none => rw [hfind] at hsome; simp at hsome
      | some w' =>
        have hw'mem : w' ∈ nbrs g cur := List.mem_of_find?_eq_some hfind
        have hw'p : distOpt g src w' = some e := by
          have := List.find?_some hfind
          simpa using this
        obtain ⟨hh, hl, hch⟩ := ih w' hw'p
        have hred : buildPath g src (e + 1) cur = buildPath g src e w' ++ [cur] := by
          conv_lhs => rw [buildPath]
          rw [hfind]
        rw [hred]
        refine ⟨?_, List.getLast?_concat _, ?_⟩
        · cases hbp : buildPath g src e w' with
          | nil => rw [hbp] at hh; simp at hh
          | cons a l =>
            rw [hbp] at hh
            simp only [List.head?_cons, Option.some.injEq] at hh
            simp [hh]
        · rw [List.chain'_append]
          refine ⟨hch, List.chain'_singleton _, ?_⟩
          intro x hx y hy
          rw [hl] at hx
          simp only [Option.mem_def, Option.some.injEq] at hx
          simp only [List.head?_cons, Option.mem_def, Option.some.injEq] at hy
          subst hx
          subst hy
          exact adj_symm hw'mem

lemma shortest_path_safe_head {g : Graph} (hWF : g.WF) (src dst : String) :
    (shortest_path_safe g src dst).head? = some src := by
  unfold shortest_path_safe
  cases h : distOpt g src dst with
  | none => rfl
  | some d => exact (buildPath_spec hWF d dst h).1

lemma shortest_path_safe_chain {g : Graph} (hWF : g.WF) (src dst : String) :
    List.Chain' (Adj g) (shortest_path_safe g src dst) := by
  unfold shortest_path_safe
  cases h : distOpt g src dst with
  | none => exact List.chain'_singleton _
  | some d => exact (buildPath_spec hWF d dst h).2.2

end PathLemmas

section FrequencyLemmas

lemma lookup_eq_none_of_not_mem {l : List (String × ℚ)} {e : String}
    (h : e ∉ l.map Prod.fst) : l.lookup e = none := by
  induction l with
  | nil => rfl
  | cons p rest ih =>
    simp only [List.map_cons, List.mem_cons] at h
    push_neg at h
    have hne : (e == p.1) = false := by
      simp [h.1]
    cases p with
    | mk k v =>
      simp only [List.lookup]
      rw [hne]
      exact ih h.2

lemma decayList_keys_subset {rate : ℚ} :
    ∀ {l : List (String × ℚ)} {k : String},
      k ∈ (decayList rate l).map Prod.fst → k ∈ l.map Prod.fst := by
  intro l
  induction l with
  | nil => intro k h; simpa [decayList] using h
  | cons p rest ih =>
    intro k h
    cases p with
    | mk k' v =>
      simp only [decayList] at h
      by_cases hdel : v * rate < 1e-4
      · rw [if_pos hdel] at h
        exact List.mem_cons_of_mem _ (ih h)
      · rw [if_neg hdel] at h
        simp only [List.map_cons, List.mem_cons] at h ⊢
        rcases h with h | h
        · exact Or.inl h
        · exact Or.inr (ih h)

lemma decayList_lookup {rate : ℚ} :
    ∀ {l : List (String × ℚ)}, (l.map Prod.fst).Nodup →
      ∀ {e : String} {v : ℚ}, l.lookup e = some v →
        (decayList rate l).lookup e =
          if v * rate < 1e-4 then none else some (v * rate) := by
  intro l
  induction l with
  | nil => intro _ e v h; cases h
  | cons p rest ih =>
    intro hnd e v h
    cases p with
    | mk k w =>
      simp only [List.map_cons, List.nodup_cons] at hnd
      by_cases hk : e = k
      · have hbeq : (e == k) = true := by simp [hk]
        simp only [List.lookup, hbeq] at h
        have hwv : w = v := by injection h
        subst hwv
        simp only [decayList]
        by_cases hdel : w * rate < 1e-4
        · rw [if_pos hdel, if_pos hdel]
          apply lookup_eq_none_of_not_mem
          intro hmem
          exact hnd.1 (hk ▸ decayList_keys_subset hmem)
        · rw [if_neg hdel, if_neg hdel]
          simp [List.lookup, hbeq]
      · have hbeq : (e == k) = false := by simp [hk]
        simp only [List.lookup, hbeq] at h
        simp only [decayList]
        by_cases hdel : w * rate < 1e-4
        · rw [if_pos hdel]
          exact ih hnd.2 h
        · rw [if_neg hdel]
          simp only [List.lookup, hbeq]
          exact ih hnd.2 h

lemma decayList_bounded {rate : ℚ} :
    ∀ {l : List (String × ℚ)}, ∀ p ∈ decayList rate l, (1e-4 : ℚ) ≤ p.2 := by
  intro l
  induction l with
  | nil => intro p h; cases h
  | cons q rest ih =>
    intro p h
    cases q with
    | mk k w =>
      simp only [decayList] at h
      by_cases hdel : w * rate < 1e-4
      · rw [if_pos hdel] at h
        exact ih p h
      · rw [if_neg hdel] at h
        rcases List.mem_cons.1 h with rfl | h
        · exact le_of_not_lt hdel
        · exact ih p h

lemma bumpFreq_bounded :
    ∀ {l : List (String × ℚ)}, (∀ p ∈ l, (1e-4 : ℚ) ≤ p.2) →
      ∀ {e : String}, ∀ p ∈ bumpFreq l e, (1e-4 : ℚ) ≤ p.2 := by
  intro l
  induction l with
  | nil =>
    intro _ e p h
    simp only [bumpFreq, List.mem_singleton] at h
    subst h
    norm_num
  | cons q rest ih =>
    intro hb e p h
    cases q with
    | mk k w =>
      simp only [bumpFreq] at h
      by_cases hk : k = e
      · rw [if_pos hk] at h
        rcases List.mem_cons.1 h with rfl | h
        · have := hb (k, w) (List.mem_cons_self _ _)
          simp only at this ⊢
          linarith
        · exact hb p (List.mem_cons_of_mem _ h)
      · rw [if_neg hk] at h
        rcases List.mem_cons.1 h with hp | h
        · rw [hp]
          exact hb _ (List.mem_cons_self _ _)
        · exact ih (fun q hq => hb q (List.mem_cons_of_mem _ hq)) p h

lemma foldl_bumpFreq_bounded :
    ∀ (ents : List String) {l : List (String × ℚ)}, (∀ p ∈ l, (1e-4 : ℚ) ≤ p.2) →
      ∀ p ∈ ents.foldl bumpFreq l, (1e-4 : ℚ) ≤ p.2 := by
  intro ents
  induction ents with
  | nil => intro l hb p h; exact hb p h
  | cons e rest ih =>
    intro l hb p h
    exact ih (bumpFreq_bounded hb) p h

/-- The lower-bound invariant of the entity-frequency map. -/
def freqInv (gm : GM) : Prop := ∀ p ∈ gm.entity_frequency, (1e-4 : ℚ) ≤ p.2

lemma freqInv_decay (gm : GM) (hinv : freqInv gm) : freqInv (apply_temporal_decay gm) := by
  unfold apply_temporal_decay
  by_cases hemp : gm.entity_frequency = []
  · rw [if_pos hemp]; exact hinv
  · rw [if_neg hemp]
    intro p hp
    exact decayList_bounded p hp

end FrequencyLemmas

/-- Claim C9: `reload_graph` never raises to its caller: whenever the graph
file is missing or reading it fails (`readResult = none`), the snapshot
becomes the empty graph with empty label index, empty metadata and empty
centrality map, for every prior state and every centrality algorithm. -/
theorem C9_reload_failure_degrades_to_empty (alg : Graph → List (String × ℝ)) (gm : GM) :
    (reload_graph alg gm none).graph = emptyGraph ∧
    (reload_graph alg gm none).label_index = [] ∧
    (reload_graph alg gm none).node_metadata = [] ∧
    (reload_graph alg gm none).centrality = [] :=
  ⟨rfl, rfl, rfl, rfl⟩

/-- Claim C7: after `apply_temporal_decay`, an entry that survives holds
exactly its old weight times the decay rate, which is strictly below the old
weight when the rate is below one; an entry whose decayed weight falls below
`1e-4` is removed from the map. -/
theorem C7_decay_strictly_decreases_and_evicts (gm : GM) (e : String) (v : ℚ)
    (hnd : (gm.entity_frequency.map Prod.fst).Nodup)
    (hv : gm.entity_frequency.lookup e = some v)
    (hpos : 0 < v)
    (hrate : gm.settings.TEMPORAL_DECAY_RATE < 1) :
    ((apply_temporal_decay gm).entity_frequency.lookup e =
        if v * gm.settings.TEMPORAL_DECAY_RATE < 1e-4 then none
        else some (v * gm.settings.TEMPORAL_DECAY_RATE)) ∧
    (∀ w, (apply_temporal_decay gm).entity_frequency.lookup e = some w → w < v) := by
  have hne : gm.entity_frequency ≠ [] := by
    intro h
    rw [h] at hv
    cases hv
  have hfreq : (apply_temporal_decay gm).entity_frequency =
      decayList gm.settings.TEMPORAL_DECAY_RATE gm.entity_frequency := by
    unfold apply_temporal_decay
    rw [if_neg hne]
  have hmain : (decayList gm.settings.TEMPORAL_DECAY_RATE gm.entity_frequency).lookup e =
      if v * gm.settings.TEMPORAL_DECAY_RATE < 1e-4 then none
      else some (v * gm.settings.TEMPORAL_DECAY_RATE) := decayList_lookup hnd hv
  constructor
  · rw [hfreq]; exact hmain
  · intro w hw
    rw [hfreq, hmain] at hw
    by_cases hdel : v * gm.settings.TEMPORAL_DECAY_RATE < 1e-4
    · rw [if_pos hdel] at hw; cases hw
    · rw [if_neg hdel] at hw
      injection hw with hw
      subst hw
      calc v * gm.settings.TEMPORAL_DECAY_RATE < v * 1 := by
            exact (mul_lt_mul_left hpos).2 hrate
        _ = v := mul_one v

/-- A small concrete state for the decay witnesses: one tracked entity with
weight 1, decay rate 1/2. -/
noncomputable def gmDecayW : GM :=
  { graph := emptyGraph
    label_index := []
    node_metadata := []
    entity_frequency := [("a", 1)]
    entity_last_seen := []
    total_queries := 0
    response_times := []
    last_entities := []
    last_query := none
    last_response := none
    centrality := []
    settings :=
      { MAX_GRAPH_NODES := 100
        MAX_HOPS := 2
        TEMPORAL_DECAY_RATE := 1/2
        ENTITY_FREQUENCY_WEIGHT := 0.3
        RECENCY_WEIGHT := 0.2
        CENTRALITY_WEIGHT := 0.3
        FOCAL_WEIGHT := 0.2 } }

theorem C7_witness :
    (apply_temporal_decay gmDecayW).entity_frequency.lookup "a" = some (1/2 : ℚ) := by
  have h := C7_decay_strictly_decreases_and_evicts gmDecayW "a" 1
    (by simp [gmDecayW]) (by simp [gmDecayW, List.lookup]) (by norm_num)
    (by simp [gmDecayW]; norm_num)
  rw [h.1]
  simp [gmDecayW]
  norm_num

/-- Claim C10: the entity-frequency invariant (every stored weight is at
least the eviction threshold `1e-4`, hence strictly positive) is kept by both
mutating operations: `apply_temporal_decay` deletes anything that falls
below the threshold, and `update_conversation_context` decays first and then
only adds `+1.0`; the read-only operations take the state as an argument and
return values without producing a new state. -/
theorem C10_frequency_invariant_preserved (gm : GM) (query response : String)
    (entities : List String) (rt now : ℚ) (hinv : freqInv gm) :
    freqInv (apply_temporal_decay gm) ∧
    freqInv (update_conversation_context gm query response entities rt now) := by
  refine ⟨freqInv_decay gm hinv, ?_⟩
  intro p hp
  unfold update_conversation_context at hp
  simp only at hp
  exact foldl_bumpFreq_bounded entities.dedup (freqInv_decay gm hinv) p hp

theorem C10_witness :
    freqInv (apply_temporal_decay gmDecayW) ∧
    freqInv (update_conversation_context gmDecayW "q" "r" ["b"] 0 0) :=
  C10_frequency_invariant_preserved gmDecayW "q" "r" ["b"] 0 0
    (by intro p hp; simp [gmDecayW] at hp; rw [hp]; norm_num)

/-- A concrete state for the scorer: one tracked entity `"a"`, last seen at
time 0, default configuration. -/
noncomputable def gmScore : GM :=
  { graph := emptyGraph
    label_index := []
    node_metadata := []
    entity_frequency := [("a", 1)]
    entity_last_seen := [("a", 0)]
    total_queries := 0
    response_times := []
    last_entities := []
    last_query := none
    last_response := none
    centrality := []
    settings := defaultSettings }

/-- Claim C3 counterexample: `calculate_node_importance` reads the wall clock
(`datetime.utcnow()` inside `_recency_score`), so two calls with identical
graph, centrality, frequency and last-seen state — here literally the same
state `gmScore` — return different results when made at different times
(time 0 versus one hour later). -/
theorem C3_counterexample :
    calculate_node_importance gmScore 0 "a" [] ≠
      calculate_node_importance gmScore 3600 "a" [] := by
  unfold calculate_node_importance recency_score maxFreqOf
  simp only [gmScore, defaultSettings, List.lookup, List.map_cons, List.map_nil]
  norm_num
  rw [Real.exp_log (by norm_num : (0 : ℝ) < 19 / 20)]
  norm_num

/-- Claim C3 amended: `calculate_node_importance` is deterministic given the
frequency, last-seen, centrality and configuration state together with the
clock reading: two calls with identical such state and the same current time
return identical results (the remaining state — the graph snapshot, indices
and statistics — does not influence the score). -/
theorem C3_deterministic_given_state_and_clock (s₁ s₂ : GM) (now : ℚ) (node : String)
    (focal : List String)
    (hf : s₁.entity_frequency = s₂.entity_frequency)
    (hl : s₁.entity_last_seen = s₂.entity_last_seen)
    (hc : s₁.centrality = s₂.centrality)
    (hs : s₁.settings = s₂.settings) :
    calculate_node_importance s₁ now node focal =
      calculate_node_importance s₂ now node focal := by
  unfold calculate_node_importance recency_score maxFreqOf
  rw [hf, hl, hc, hs]

theorem C3_witness :
    calculate_node_importance gmScore 0 "a" [] =
      calculate_node_importance
        { gmScore with graph := ⟨[("x", {})], []⟩, total_queries := 7 } 0 "a" [] :=
  C3_deterministic_given_state_and_clock _ _ 0 "a" [] rfl rfl rfl rfl

section InducedLemmas

lemma map_fst_filter_nodes (l : List (String × NodeData)) (s : Finset String) :
    (l.filter (fun nd => decide (nd.1 ∈ s))).map Prod.fst
      = (l.map Prod.fst).filter (fun x => decide (x ∈ s)) := by
  induction l with
  | nil => rfl
  | cons nd rest ih =>
    by_cases h : nd.1 ∈ s
    · simp [List.filter_cons, h, ih]
    · simp [List.filter_cons, h, ih]

lemma induced_nodeIds (g : Graph) (s : Finset String) :
    (inducedSubgraph g s).nodeIds = g.nodeIds.filter (fun x => decide (x ∈ s)) :=
  map_fst_filter_nodes g.nodes s

lemma mem_induced_nodeIds {g : Graph} {s : Finset String} {x : String} :
    x ∈ (inducedSubgraph g s).nodeIds ↔ x ∈ g.nodeIds ∧ x ∈ s := by
  rw [induced_nodeIds]
  simp [List.mem_filter]

lemma induced_WF {g : Graph} (hWF : g.WF) (s : Finset String) : (inducedSubgraph g s).WF := by
  constructor
  · rw [induced_nodeIds]
    exact hWF.1.filter _
  · intro e he
    have hmem : e ∈ g.edges ∧ e.1 ∈ s ∧ e.2.1 ∈ s := by
      have := he
      simp only [inducedSubgraph, List.mem_filter, Bool.and_eq_true, decide_eq_true_eq] at this
      exact ⟨this.1, this.2.1, this.2.2⟩
    obtain ⟨h1, h2⟩ := hWF.2 e hmem.1
    exact ⟨mem_induced_nodeIds.2 ⟨h1, hmem.2.1⟩, mem_induced_nodeIds.2 ⟨h2, hmem.2.2⟩⟩

lemma induced_adj_le {g : Graph} {s s' : Finset String} (hsub : ∀ x ∈ s, x ∈ s')
    {u v : String} (h : Adj (inducedSubgraph g s) u v) : Adj (inducedSubgraph g s') u v := by
  rcases mem_nbrs.1 h with ⟨e, he, hor⟩
  have hmem : e ∈ g.edges ∧ e.1 ∈ s ∧ e.2.1 ∈ s := by
    simp only [inducedSubgraph, List.mem_filter, Bool.and_eq_true, decide_eq_true_eq] at he
    exact ⟨he.1, he.2.1, he.2.2⟩
  apply mem_nbrs.2
  refine ⟨e, ?_, hor⟩
  simp only [inducedSubgraph, List.mem_filter, Bool.and_eq_true, decide_eq_true_eq]
  exact ⟨hmem.1, hsub _ hmem.2.1, hsub _ hmem.2.2⟩

lemma induced_adj_to_base {g : Graph} {s : Finset String} {u v : String}
    (h : Adj (inducedSubgraph g s) u v) : Adj g u v := by
  rcases mem_nbrs.1 h with ⟨e, he, hor⟩
  have hmem : e ∈ g.edges := by
    simp only [inducedSubgraph, List.mem_filter] at he
    exact he.1
  exact mem_nbrs.2 ⟨e, hmem, hor⟩

lemma adj_induced_of {g : Graph} {s : Finset String} {u v : String} (h : Adj g u v)
    (hu : u ∈ s) (hv : v ∈ s) : Adj (inducedSubgraph g s) u v := by
  rcases mem_nbrs.1 h with ⟨e, he, hor⟩
  apply mem_nbrs.2
  refine ⟨e, ?_, hor⟩
  simp only [inducedSubgraph, List.mem_filter, Bool.and_eq_true, decide_eq_true_eq]
  rcases hor with ⟨h1, h2⟩ | ⟨h1, h2⟩
  · exact ⟨he, h1 ▸ hu, h2 ▸ hv⟩
  · exact ⟨he, h2 ▸ hv, h1 ▸ hu⟩

lemma reach_induced_mono {g : Graph} {s s' : Finset String} (hsub : ∀ x ∈ s, x ∈ s')
    {u v : String} (h : Reach (inducedSubgraph g s) u v) :
    Reach (inducedSubgraph g s') u v :=
  reach_mono
    (fun x hx => by
      rw [mem_induced_nodeIds] at hx ⊢
      exact ⟨hx.1, hsub _ hx.2⟩)
    (fun _ _ ha => induced_adj_le hsub ha) h

lemma reach_induced_to_base {g : Graph} {s : Finset String} {u v : String}
    (h : Reach (inducedSubgraph g s) u v) : Reach g u v :=
  reach_mono (fun x hx => (mem_induced_nodeIds.1 hx).1)
    (fun _ _ ha => induced_adj_to_base ha) h

end InducedLemmas

section BuildLemmas

lemma build_eq (gm : GM) (now : ℚ) (F : List String) (mh mn : Option Nat)
    (hne : gm.graph.nodes.length ≠ 0) :
    build_contextual_subgraph gm now F mh mn =
      inducedSubgraph gm.graph
        (ensure_connectivity gm.graph
          (inducedSubgraph gm.graph
            (initialSelection gm now F (pyOrNat mh gm.settings.MAX_HOPS)
              (pyOrNat mn gm.settings.MAX_GRAPH_NODES)))
          (initialSelection gm now F (pyOrNat mh gm.settings.MAX_HOPS)
            (pyOrNat mn gm.settings.MAX_GRAPH_NODES))
          F (pyOrNat mn gm.settings.MAX_GRAPH_NODES)) := by
  unfold build_contextual_subgraph
  rw [if_neg hne]

lemma addPath_fst_superset (maxN : Nat) :
    ∀ (p : List String) (sel : Finset String), sel ⊆ (addPath maxN p sel).1 := by
  intro p
  induction p with
  | nil => intro sel x hx; exact hx
  | cons node rest ih =>
    intro sel
    simp only [addPath]
    by_cases h : maxN ≤ (insert node sel).card
    · rw [if_pos h]
      exact fun x hx => Finset.mem_insert_of_mem hx
    · rw [if_neg h]
      exact fun x hx => ih (insert node sel) (Finset.mem_insert_of_mem hx)

lemma stitch_superset (g : Graph) (focal : List String) (maxN : Nat) (base : List String) :
    ∀ (comps : List (List String)) (sel : Finset String),
      sel ⊆ stitchComps g focal maxN base comps sel := by
  intro comps
  induction comps with
  | nil => intro sel x hx; exact hx
  | cons comp rest ih =>
    intro sel
    by_cases hb : comp = base
    · simp only [stitchComps]
      rw [if_pos hb]
      exact ih sel
    · cases comp with
      | nil =>
        simp only [stitchComps]
        rw [if_neg hb]
        exact ih sel
      | cons source ctail =>
        simp only [stitchComps]
        rw [if_neg hb]
        cases hmin : argminBy (fun f => spl_safe g source f) focal with
        | none =>
          simp only [hmin]
          exact ih sel
        | some target =>
          simp only [hmin]
          by_cases ho : (addPath maxN (shortest_path_safe g source target) sel).2 = true
          · rw [if_pos ho]
            exact addPath_fst_superset maxN _ sel
          · rw [if_neg ho]
            exact fun x hx =>
              ih _ (addPath_fst_superset maxN (shortest_path_safe g source target) sel hx)

lemma ensure_superset (g subg : Graph) (sel : Finset String) (F : List String) (maxN : Nat) :
    sel ⊆ ensure_connectivity g subg sel F maxN := by
  unfold ensure_connectivity
  by_cases h1 : F = []
  · rw [if_pos h1]
  · rw [if_neg h1]
    by_cases h2 : (componentsOf subg).length ≤ 1
    · rw [if_pos h2]
    · rw [if_neg h2]
      by_cases h3 : F.filter (fun node => decide (node ∈ g.nodeIds)) = []
      · rw [if_pos h3]
      · rw [if_neg h3]
        exact stitch_superset g _ maxN _ (componentsOf subg) sel

lemma focal_subset_initialSelection (gm : GM) (now : ℚ) (F : List String)
    (maxH maxN : Nat) (hne : F ≠ []) :
    F.toFinset ⊆ initialSelection gm now F maxH maxN := by
  unfold initialSelection
  rw [if_neg hne]
  exact Finset.subset_union_right

lemma mem_build_of_focal (gm : GM) (now : ℚ) (F : List String) (mh mn : Option Nat)
    {f : String} (hf : f ∈ F) (hfV : f ∈ gm.graph.nodeIds) :
    f ∈ (build_contextual_subgraph gm now F mh mn).nodeIds := by
  have hne : gm.graph.nodes.length ≠ 0 := by
    intro h0
    rw [List.length_eq_zero] at h0
    unfold Graph.nodeIds at hfV
    rw [h0] at hfV
    cases hfV
  rw [build_eq gm now F mh mn hne, mem_induced_nodeIds]
  refine ⟨hfV, ?_⟩
  apply ensure_superset
  exact focal_subset_initialSelection gm now F _ _ (List.ne_nil_of_mem hf)
    (List.mem_toFinset.2 hf)

end BuildLemmas

/-- Claim C2: when the focal set is non-empty and every focal entity exists
in the graph, every focal entity is a node of the returned subgraph,
whatever its importance score: the selection force-adds the whole focal set
after truncation and connectivity repair only grows the selection. -/
theorem C2_focal_entities_survive_truncation (gm : GM) (now : ℚ) (F : List String)
    (mh mn : Option Nat) (hne : F ≠ []) (hall : ∀ f ∈ F, f ∈ gm.graph.nodeIds) :
    ∀ f ∈ F, f ∈ (build_contextual_subgraph gm now F mh mn).nodeIds :=
  fun f hf => mem_build_of_focal gm now F mh mn hf (hall f hf)

/-- The two-node graph A — B. -/
def gAB : Graph := ⟨[("A", {}), ("B", {})], [("A", "B", {})]⟩

/-- A concrete manager state over `gAB` (the centrality values are the exact
pagerank scores of the symmetric two-node graph). -/
noncomputable def gmAB : GM :=
  { graph := gAB
    label_index := build_label_index gAB.nodes
    node_metadata := build_node_metadata gAB.nodes
    entity_frequency := []
    entity_last_seen := []
    total_queries := 0
    response_times := []
    last_entities := []
    last_query := none
    last_response := none
    centrality := [("A", 0.5), ("B", 0.5)]
    settings := defaultSettings }

theorem C2_witness :
    "A" ∈ (build_contextual_subgraph gmAB 0 ["A", "B"] none none).nodeIds :=
  C2_focal_entities_survive_truncation gmAB 0 ["A", "B"] none none
    (by simp)
    (by
      intro f hf
      show f ∈ gmAB.graph.nodeIds
      have : gmAB.graph.nodeIds = ["A", "B"] := rfl
      rw [this]
      simpa using hf)
    "A" (by simp)

section CardLemmas

lemma addPath_card_le (maxN : Nat) :
    ∀ (p : List String) (sel : Finset String), sel.card < maxN →
      ((addPath maxN p sel).1).card ≤ maxN := by
  intro p
  induction p with
  | nil => intro sel h; exact le_of_lt h
  | cons node rest ih =>
    intro sel h
    simp only [addPath]
    have hins : (insert node sel).card ≤ sel.card + 1 := Finset.card_insert_le _ _
    by_cases hc : maxN ≤ (insert node sel).card
    · rw [if_pos hc]
      show (insert node sel).card ≤ maxN
      omega
    · rw [if_neg hc]
      exact ih _ (by omega)

lemma addPath_card_le_of_head (maxN : Nat) (p : List String) (sel : Finset String)
    (hhead : ∀ h ∈ p.head?, h ∈ sel) :
    ((addPath maxN p sel).1).card ≤ max sel.card maxN := by
  cases p with
  | nil => exact le_max_left _ _
  | cons node rest =>
    have hnode : node ∈ sel := hhead node rfl
    have hins : insert node sel = sel := Finset.insert_eq_self.2 hnode
    simp only [addPath, hins]
    by_cases hc : maxN ≤ sel.card
    · rw [if_pos hc]
      exact le_max_left _ _
    · rw [if_neg hc]
      exact le_trans (addPath_card_le maxN rest sel (by omega)) (le_max_right _ _)

lemma stitch_card_le {g : Graph} (hWF : g.WF) (focal : List String) (maxN : Nat)
    (base : List String) (sel₀ : Finset String) :
    ∀ (comps : List (List String)) (sel : Finset String),
      sel₀ ⊆ sel →
      (∀ c ∈ comps, ∀ x ∈ c, x ∈ sel₀) →
      (stitchComps g focal maxN base comps sel).card ≤ max sel.card maxN := by
  intro comps
  induction comps with
  | nil => intro sel _ _; exact le_max_left _ _
  | cons comp rest ih =>
    intro sel hsub hcomps
    have hrest : ∀ c ∈ rest, ∀ x ∈ c, x ∈ sel₀ :=
      fun c hc => hcomps c (List.mem_cons_of_mem _ hc)
    by_cases hb : comp = base
    · simp only [stitchComps]
      rw [if_pos hb]
      exact ih sel hsub hrest
    · cases comp with
      | nil =>
        simp only [stitchComps]
        rw [if_neg hb]
        exact ih sel hsub hrest
      | cons source ctail =>
        simp only [stitchComps]
        rw [if_neg hb]
        cases hmin : argminBy (fun f => spl_safe g source f) focal with
        | none =>
          simp only [hmin]
          exact ih sel hsub hrest
        | some target =>
          simp only [hmin]
          have hsrc : source ∈ sel :=
            hsub (hcomps _ (List.mem_cons_self _ _) source (List.mem_cons_self _ _))
          have hhead : ∀ h ∈ (shortest_path_safe g source target).head?, h ∈ sel := by
            intro h hh
            rw [shortest_path_safe_head hWF] at hh
            simp only [Option.mem_def, Option.some.injEq] at hh
            rw [← hh]
            exact hsrc
          have hcard := addPath_card_le_of_head maxN (shortest_path_safe g source target) sel hhead
          by_cases ho : (addPath maxN (shortest_path_safe g source target) sel).2 = true
          · rw [if_pos ho]
            exact hcard
          · rw [if_neg ho]
            have hsub' : sel₀ ⊆ (addPath maxN (shortest_path_safe g source target) sel).1 :=
              hsub.trans (addPath_fst_superset maxN _ sel)
            exact le_trans (ih _ hsub' hrest) (max_le hcard (le_max_right _ _))

lemma ensure_card_le {g : Graph} (hWF : g.WF) (subg : Graph) (sel : Finset String)
    (F : List String) (maxN : Nat)
    (hcomps : ∀ c ∈ componentsOf subg, ∀ x ∈ c, x ∈ sel) :
    (ensure_connectivity g subg sel F maxN).card ≤ max sel.card maxN := by
  unfold ensure_connectivity
  by_cases h1 : F = []
  · rw [if_pos h1]
    exact le_max_left _ _
  · rw [if_neg h1]
    by_cases h2 : (componentsOf subg).length ≤ 1
    · rw [if_pos h2]
      exact le_max_left _ _
    · rw [if_neg h2]
      by_cases h3 : F.filter (fun node => decide (node ∈ g.nodeIds)) = []
      · rw [if_pos h3]
        exact le_max_left _ _
      · rw [if_neg h3]
        exact stitch_card_le hWF _ maxN _ sel (componentsOf subg) sel
          (fun x hx => hx) hcomps

lemma induced_nodeIds_length {g : Graph} (hnd : g.nodeIds.Nodup) (s : Finset String) :
    (inducedSubgraph g s).nodeIds.length = (g.nodeIds.toFinset ∩ s).card := by
  rw [induced_nodeIds]
  have h1 : (g.nodeIds.filter (fun x => decide (x ∈ s))).toFinset.card =
      (g.nodeIds.filter (fun x => decide (x ∈ s))).length :=
    List.toFinset_card_of_nodup (hnd.filter _)
  rw [List.toFinset_filter] at h1
  rw [← h1]
  congr 1
  ext x
  simp [Finset.mem_filter, Finset.mem_inter]

lemma card_inter_initialSelection (gm : GM) (now : ℚ) (F : List String)
    (maxH maxN : Nat) :
    (gm.graph.nodeIds.toFinset ∩ initialSelection gm now F maxH maxN).card ≤
      maxN + (F.toFinset ∩ gm.graph.nodeIds.toFinset).card := by
  unfold initialSelection
  have htop : ∀ l : List (String × ℝ),
      ((l.take maxN).map Prod.fst).toFinset.card ≤ maxN := by
    intro l
    refine le_trans (List.toFinset_card_le _) ?_
    rw [List.length_map, List.length_take]
    exact min_le_left _ _
  by_cases hF : F = []
  · rw [if_pos hF]
    refine le_trans (Finset.card_le_card Finset.inter_subset_right) ?_
    exact le_trans (htop _) (Nat.le_add_right _ _)
  · rw [if_neg hF]
    have hsub : gm.graph.nodeIds.toFinset ∩
        ((((((candidateNodes gm maxH maxN F).map
            (fun node => (node, calculate_node_importance gm now node F))).mergeSort
              (fun a b => decide (b.2 ≤ a.2))).take maxN).map Prod.fst).toFinset ∪
          F.toFinset) ⊆
        (((((candidateNodes gm maxH maxN F).map
            (fun node => (node, calculate_node_importance gm now node F))).mergeSort
              (fun a b => decide (b.2 ≤ a.2))).take maxN).map Prod.fst).toFinset ∪
          (F.toFinset ∩ gm.graph.nodeIds.toFinset) := by
      intro x hx
      rw [Finset.mem_inter, Finset.mem_union] at hx
      rcases hx.2 with h | h
      · exact Finset.mem_union_left _ h
      · exact Finset.mem_union_right _ (Finset.mem_inter.2 ⟨h, hx.1⟩)
    refine le_trans (Finset.card_le_card hsub) ?_
    refine le_trans (Finset.card_union_le _ _) ?_
    have := htop (((candidateNodes gm maxH maxN F).map
      (fun node => (node, calculate_node_importance gm now node F))).mergeSort
        (fun a b => decide (b.2 ≤ a.2)))
    omega

end CardLemmas

/-- Claim C1: for a positive `max_nodes = n`, the built subgraph holds at
most `n` plus the number of focal entities present in the graph, including
after connectivity repair (repair stops growing the selection once the
budget is reached, and each stitched path starts at an already selected
node). -/
theorem C1_node_count_bounded (gm : GM) (now : ℚ) (F : List String) (mh : Option Nat)
    (n : Nat) (hWF : gm.graph.WF) (hn : 0 < n) :
    (build_contextual_subgraph gm now F mh (some n)).nodeIds.length ≤
      n + (F.toFinset ∩ gm.graph.nodeIds.toFinset).card := by
  by_cases hg : gm.graph.nodes.length = 0
  · unfold build_contextual_subgraph
    rw [if_pos hg]
    simp [emptyGraph, Graph.nodeIds]
  · rw [build_eq _ _ _ _ _ hg]
    have hpy : pyOrNat (some n) gm.settings.MAX_GRAPH_NODES = n := by
      simp only [pyOrNat]
      rw [if_neg (by omega)]
    rw [hpy]
    rw [induced_nodeIds_length hWF.1]
    have hcomps : ∀ c ∈ componentsOf
        (inducedSubgraph gm.graph
          (initialSelection gm now F (pyOrNat mh gm.settings.MAX_HOPS) n)),
        ∀ x ∈ c, x ∈ initialSelection gm now F (pyOrNat mh gm.settings.MAX_HOPS) n := by
      intro c hc x hx
      exact (mem_induced_nodeIds.1 (mem_comp_subset hc x hx)).2
    have hcard := ensure_card_le hWF _ _ F n hcomps
    by_cases hle : (initialSelection gm now F (pyOrNat mh gm.settings.MAX_HOPS) n).card ≤ n
    · have h1 : (ensure_connectivity gm.graph
          (inducedSubgraph gm.graph
            (initialSelection gm now F (pyOrNat mh gm.settings.MAX_HOPS) n))
          (initialSelection gm now F (pyOrNat mh gm.settings.MAX_HOPS) n) F n).card ≤ n :=
        le_trans hcard (max_le hle (le_refl n))
      have h2 : (gm.graph.nodeIds.toFinset ∩
          ensure_connectivity gm.graph
            (inducedSubgraph gm.graph
              (initialSelection gm now F (pyOrNat mh gm.settings.MAX_HOPS) n))
            (initialSelection gm now F (pyOrNat mh gm.settings.MAX_HOPS) n) F n).card ≤
          (ensure_connectivity gm.graph
            (inducedSubgraph gm.graph
              (initialSelection gm now F (pyOrNat mh gm.settings.MAX_HOPS) n))
            (initialSelection gm now F (pyOrNat mh gm.settings.MAX_HOPS) n) F n).card :=
        Finset.card_le_card Finset.inter_subset_right
      omega
    · have hsub := ensure_superset gm.graph
        (inducedSubgraph gm.graph
          (initialSelection gm now F (pyOrNat mh gm.settings.MAX_HOPS) n))
        (initialSelection gm now F (pyOrNat mh gm.settings.MAX_HOPS) n) F n
      have heq : ensure_connectivity gm.graph
          (inducedSubgraph gm.graph
            (initialSelection gm now F (pyOrNat mh gm.settings.MAX_HOPS) n))
          (initialSelection gm now F (pyOrNat mh gm.settings.MAX_HOPS) n) F n =
          initialSelection gm now F (pyOrNat mh gm.settings.MAX_HOPS) n :=
        (Finset.eq_of_subset_of_card_le hsub
          (le_trans hcard (max_le (le_refl _) (by omega)))).symm
      rw [heq]
      exact card_inter_initialSelection gm now F (pyOrNat mh gm.settings.MAX_HOPS) n

theorem C1_witness :
    (build_contextual_subgraph gmAB 0 ["A"] none (some 1)).nodeIds.length ≤
      1 + ((["A"] : List String).toFinset ∩ gmAB.graph.nodeIds.toFinset).card :=
  C1_node_count_bounded gmAB 0 ["A"] none 1 (by decide) (by decide)

section SelectionLemmas

lemma initialSelection_of_le (gm : GM) (now : ℚ) (F : List String) (maxH maxN : Nat)
    (hlen : (candidateNodes gm maxH maxN F).length ≤ maxN) :
    initialSelection gm now F maxH maxN =
      (if F = [] then (candidateNodes gm maxH maxN F).toFinset
       else (candidateNodes gm maxH maxN F).toFinset ∪ F.toFinset) := by
  simp only [initialSelection]
  have hlensorted :
      (((candidateNodes gm maxH maxN F).map
        (fun node => (node, calculate_node_importance gm now node F))).mergeSort
          (fun a b => decide (b.2 ≤ a.2))).length ≤ maxN := by
    rw [List.length_mergeSort, List.length_map]
    exact hlen
  rw [List.take_of_length_le hlensorted]
  have hperm := (List.mergeSort_perm ((candidateNodes gm maxH maxN F).map
    (fun node => (node, calculate_node_importance gm now node F)))
      (fun a b => decide (b.2 ≤ a.2))).map Prod.fst
  have hfst : ∀ l : List String,
      ((l.map (fun node => (node, calculate_node_importance gm now node F))).map Prod.fst)
        = l := by
    intro l
    induction l with
    | nil => rfl
    | cons a l ih => simp only [List.map_cons, ih]
  rw [List.toFinset_eq_of_perm _ _ hperm, hfst]

lemma ensure_connectivity_nilF (g subg : Graph) (sel : Finset String) (maxN : Nat) :
    ensure_connectivity g subg sel [] maxN = sel := by
  unfold ensure_connectivity
  rw [if_pos rfl]

end SelectionLemmas

/-- Claim C6: with an empty focal set (and a non-empty graph, positive `n`),
the result is exactly the induced subgraph on the `n` highest-centrality
nodes (stable descending sort, so ties break deterministically by node
order); the importance re-ranking keeps every candidate because there are at
most `n` of them, and connectivity repair returns immediately on an empty
focal set. -/
theorem C6_empty_focal_set_centrality_fallback (gm : GM) (now : ℚ) (mh : Option Nat)
    (n : Nat) (hg : gm.graph.nodes ≠ []) (hn : 0 < n) :
    build_contextual_subgraph gm now [] mh (some n) =
      inducedSubgraph gm.graph
        (((sortByCentralityDesc gm.centrality gm.graph.nodeIds).take n).toFinset) := by
  have hglen : gm.graph.nodes.length ≠ 0 := by
    intro h
    exact hg (List.length_eq_zero.1 h)
  rw [build_eq _ _ _ _ _ hglen]
  have hpy : pyOrNat (some n) gm.settings.MAX_GRAPH_NODES = n := by
    simp only [pyOrNat]
    rw [if_neg (by omega)]
  rw [hpy]
  have hcand : candidateNodes gm (pyOrNat mh gm.settings.MAX_HOPS) n [] =
      (sortByCentralityDesc gm.centrality gm.graph.nodeIds).take n := by
    unfold candidateNodes
    simp
  have hsel := initialSelection_of_le gm now [] (pyOrNat mh gm.settings.MAX_HOPS) n
    (by rw [hcand, List.length_take]; exact min_le_left _ _)
  rw [if_pos rfl] at hsel
  rw [hsel, hcand, ensure_connectivity_nilF]

theorem C6_witness :
    build_contextual_subgraph gmAB 0 [] none (some 1) =
      inducedSubgraph gmAB.graph
        (((sortByCentralityDesc gmAB.centrality gmAB.graph.nodeIds).take 1).toFinset) :=
  C6_empty_focal_set_centrality_fallback gmAB 0 none 1 (by decide) (by decide)

/-- Claim C4 evaluation: calling `build_contextual_subgraph` with
`max_hops = 0` does not perform a radius-0 ego expansion: Python's
`max_hops or self.settings.MAX_HOPS` treats `0` as falsy, so the configured
default (2) is used and the neighbour `B` is included, where the spec
prescribes the minimal result `{A}`. -/
theorem C4_zero_max_hops_replaced_by_default :
    (build_contextual_subgraph gmAB 0 ["A"] (some 0) (some 4)).nodeIds = ["A", "B"] := by
  have hglen : gmAB.graph.nodes.length ≠ 0 := by decide
  rw [build_eq _ _ _ _ _ hglen]
  have hpyH : pyOrNat (some 0) gmAB.settings.MAX_HOPS = 2 := by
    simp [pyOrNat, gmAB, defaultSettings]
  have hpyN : pyOrNat (some 4) gmAB.settings.MAX_GRAPH_NODES = 4 := by
    simp [pyOrNat]
  rw [hpyH, hpyN]
  have hcand : candidateNodes gmAB 2 4 ["A"] = ["B", "A"] := by decide
  have hsel := initialSelection_of_le gmAB 0 ["A"] 2 4 (by rw [hcand]; simp)
  rw [if_neg (by simp : ¬(["A"] : List String) = [])] at hsel
  rw [hsel, hcand]
  have hset : (["B", "A"] : List String).toFinset ∪ (["A"] : List String).toFinset =
      (["B", "A"] : List String).toFinset := by decide
  rw [hset]
  decide

section VisLemmas

lemma build_WF (gm : GM) (now : ℚ) (F : List String) (mh mn : Option Nat)
    (hWF : gm.graph.WF) : (build_contextual_subgraph gm now F mh mn).WF := by
  by_cases hg : gm.graph.nodes.length = 0
  · unfold build_contextual_subgraph
    rw [if_pos hg]
    constructor
    · exact List.nodup_nil
    · intro e he
      cases he
  · rw [build_eq _ _ _ _ _ hg]
    exact induced_WF hWF _

lemma vis_node_ids (gm : GM) (now : ℚ) (sub : Graph) (F : List String) :
    (graph_to_vis_format gm now sub F).nodes.map VisNode.id = sub.nodeIds := by
  simp only [graph_to_vis_format, Graph.nodeIds, List.map_map]
  rfl

lemma vis_mem_of_node (gm : GM) (now : ℚ) (sub : Graph) (F : List String)
    {nd : String × NodeData} (hnd : nd ∈ sub.nodes) :
    ∃ p ∈ (graph_to_vis_format gm now sub F).nodes,
      p.id = nd.1 ∧ p.is_focal = decide (nd.1 ∈ F) := by
  simp only [graph_to_vis_format]
  exact ⟨_, List.mem_map_of_mem _ hnd, rfl, rfl⟩

end VisLemmas

/-- Claim C8: the node ids of the `graph_to_vis_format` payload over a built
subgraph are a duplicate-free subset of the subgraph's node set, and every
focal entity present in the graph appears in the payload flagged
`is_focal = true`. -/
theorem C8_vis_payload_round_trip (gm : GM) (now : ℚ) (F : List String)
    (mh mn : Option Nat) (hWF : gm.graph.WF) :
    ((graph_to_vis_format gm now (build_contextual_subgraph gm now F mh mn) F).nodes.map
        VisNode.id).Nodup ∧
    (∀ p ∈ (graph_to_vis_format gm now (build_contextual_subgraph gm now F mh mn) F).nodes,
        p.id ∈ (build_contextual_subgraph gm now F mh mn).nodeIds) ∧
    (∀ f ∈ F, f ∈ gm.graph.nodeIds →
        ∃ p ∈ (graph_to_vis_format gm now (build_contextual_subgraph gm now F mh mn) F).nodes,
          p.id = f ∧ p.is_focal = true) := by
  refine ⟨?_, ?_, ?_⟩
  · rw [vis_node_ids]
    exact (build_WF gm now F mh mn hWF).1
  · intro p hp
    rw [← vis_node_ids gm now (build_contextual_subgraph gm now F mh mn) F]
    exact List.mem_map_of_mem _ hp
  · intro f hf hfV
    have hmem : f ∈ (build_contextual_subgraph gm now F mh mn).nodeIds :=
      mem_build_of_focal gm now F mh mn hf hfV
    unfold Graph.nodeIds at hmem
    obtain ⟨nd, hnd, hndf⟩ := List.mem_map.1 hmem
    obtain ⟨p, hp, hid, hfoc⟩ :=
      vis_mem_of_node gm now (build_contextual_subgraph gm now F mh mn) F hnd
    refine ⟨p, hp, by rw [hid, hndf], ?_⟩
    rw [hfoc]
    simp only [decide_eq_true_eq]
    rw [hndf]
    exact hf

theorem C8_witness :
    ((graph_to_vis_format gmAB 0 (build_contextual_subgraph gmAB 0 ["A"] none none)
        ["A"]).nodes.map VisNode.id).Nodup ∧
    (∀ p ∈ (graph_to_vis_format gmAB 0 (build_contextual_subgraph gmAB 0 ["A"] none none)
        ["A"]).nodes,
        p.id ∈ (build_contextual_subgraph gmAB 0 ["A"] none none).nodeIds) ∧
    (∀ f ∈ ["A"], f ∈ gmAB.graph.nodeIds →
        ∃ p ∈ (graph_to_vis_format gmAB 0 (build_contextual_subgraph gmAB 0 ["A"] none none)
            ["A"]).nodes,
          p.id = f ∧ p.is_focal = true) :=
  C8_vis_payload_round_trip gmAB 0 ["A"] none none (by decide)

section RepairInvariant

/-- Growing the selection along a path whose consecutive nodes are adjacent
keeps every selected graph node connected (inside the induced subgraph on
the selection) to an originally selected node. -/
lemma addPath_inv {G : Graph} (hWF : G.WF) (sel₀ : Finset String) (maxN : Nat) :
    ∀ (p : List String) (sel : Finset String),
      sel₀ ⊆ sel →
      (∀ x ∈ sel, x ∈ G.nodeIds →
        ∃ y, y ∈ sel₀ ∧ y ∈ G.nodeIds ∧ Reach (inducedSubgraph G sel) x y) →
      List.Chain' (Adj G) p →
      (∀ h ∈ p.head?, h ∈ sel ∨ ∃ q ∈ sel, Adj G q h) →
      sel₀ ⊆ (addPath maxN p sel).1 ∧
      ∀ x ∈ (addPath maxN p sel).1, x ∈ G.nodeIds →
        ∃ y, y ∈ sel₀ ∧ y ∈ G.nodeIds ∧
          Reach (inducedSubgraph G (addPath maxN p sel).1) x y := by
  intro p
  induction p with
  | nil => intro sel hsub hinv _ _; exact ⟨hsub, hinv⟩
  | cons node rest ih =>
    intro sel hsub hinv hchain hconn
    have hsub' : sel₀ ⊆ insert node sel := hsub.trans (Finset.subset_insert _ _)
    have hinv' : ∀ x ∈ insert node sel, x ∈ G.nodeIds →
        ∃ y, y ∈ sel₀ ∧ y ∈ G.nodeIds ∧
          Reach (inducedSubgraph G (insert node sel)) x y := by
      intro x hx hxV
      rcases Finset.mem_insert.1 hx with rfl | hxsel
      · rcases hconn x rfl with hnode | ⟨q, hq, hadj⟩
        · obtain ⟨y, h1, h2, h3⟩ := hinv x hnode hxV
          exact ⟨y, h1, h2,
            reach_induced_mono (fun z hz => Finset.mem_insert_of_mem hz) h3⟩
        · have hqV : q ∈ G.nodeIds := (mem_nodeIds_of_adj hWF hadj).1
          obtain ⟨y, h1, h2, h3⟩ := hinv q hq hqV
          refine ⟨y, h1, h2, ?_⟩
          have hstep : Adj (inducedSubgraph G (insert x sel)) x q :=
            adj_induced_of (adj_symm hadj) (Finset.mem_insert_self _ _)
              (Finset.mem_insert_of_mem hq)
          have hreach_q : Reach (inducedSubgraph G (insert x sel)) q y :=
            reach_induced_mono (fun z hz => Finset.mem_insert_of_mem hz) h3
          exact reach_trans
            ⟨mem_induced_nodeIds.2 ⟨hxV, Finset.mem_insert_self _ _⟩,
              mem_induced_nodeIds.2 ⟨hqV, Finset.mem_insert_of_mem hq⟩,
              Relation.ReflTransGen.single hstep⟩ hreach_q
      · obtain ⟨y, h1, h2, h3⟩ := hinv x hxsel hxV
        exact ⟨y, h1, h2,
          reach_induced_mono (fun z hz => Finset.mem_insert_of_mem hz) h3⟩
    simp only [addPath]
    by_cases hc : maxN ≤ (insert node sel).card
    · rw [if_pos hc]
      exact ⟨hsub', hinv'⟩
    · rw [if_neg hc]
      apply ih (insert node sel) hsub' hinv' hchain.tail
      intro h hh
      cases rest with
      | nil => cases hh
      | cons r rtail =>
        simp only [List.head?_cons, Option.mem_def, Option.some.injEq] at hh
        right
        refine ⟨node, Finset.mem_insert_self _ _, ?_⟩
        rw [← hh]
        exact (List.chain'_cons.1 hchain).1

lemma stitch_inv {G : Graph} (hWF : G.WF) (focal : List String) (maxN : Nat)
    (base : List String) (sel₀ : Finset String) :
    ∀ (comps : List (List String)) (sel : Finset String),
      sel₀ ⊆ sel →
      (∀ x ∈ sel, x ∈ G.nodeIds →
        ∃ y, y ∈ sel₀ ∧ y ∈ G.nodeIds ∧ Reach (inducedSubgraph G sel) x y) →
      (∀ c ∈ comps, ∀ x ∈ c, x ∈ sel₀) →
      sel₀ ⊆ stitchComps G focal maxN base comps sel ∧
      ∀ x ∈ stitchComps G focal maxN base comps sel, x ∈ G.nodeIds →
        ∃ y, y ∈ sel₀ ∧ y ∈ G.nodeIds ∧
          Reach (inducedSubgraph G (stitchComps G focal maxN base comps sel)) x y := by
  intro comps
  induction comps with
  | nil => intro sel hsub hinv _; exact ⟨hsub, hinv⟩
  | cons comp rest ih =>
    intro sel hsub hinv hcomps
    have hrest : ∀ c ∈ rest, ∀ x ∈ c, x ∈ sel₀ :=
      fun c hc => hcomps c (List.mem_cons_of_mem _ hc)
    by_cases hb : comp = base
    · simp only [stitchComps]
      rw [if_pos hb]
      exact ih sel hsub hinv hrest
    · cases comp with
      | nil =>
        simp only [stitchComps]
        rw [if_neg hb]
        exact ih sel hsub hinv hrest
      | cons source ctail =>
        simp only [stitchComps]
        rw [if_neg hb]
        cases hmin : argminBy (fun f => spl_safe G source f) focal with
        | none =>
          simp only [hmin]
          exact ih sel hsub hinv hrest
        | some target =>
          simp only [hmin]
          have hsrc : source ∈ sel :=
            hsub (hcomps _ (List.mem_cons_self _ _) source (List.mem_cons_self _ _))
          have hhead : ∀ h ∈ (shortest_path_safe G source target).head?,
              h ∈ sel ∨ ∃ q ∈ sel, Adj G q h := by
            intro h hh
            rw [shortest_path_safe_head hWF] at hh
            simp only [Option.mem_def, Option.some.injEq] at hh
            rw [← hh]
            exact Or.inl hsrc
          obtain ⟨hsub', hinv'⟩ := addPath_inv hWF sel₀ maxN
            (shortest_path_safe G source target) sel hsub hinv
            (shortest_path_safe_chain hWF source target)
            hhead
          by_cases ho : (addPath maxN (shortest_path_safe G source target) sel).2 = true
          · rw [if_pos ho]
            exact ⟨hsub', hinv'⟩
          · rw [if_neg ho]
            exact ih _ hsub' hinv' hrest

lemma ensure_inv {G : Graph} (hWF : G.WF) (subg : Graph) (sel₀ : Finset String)
    (F : List String) (maxN : Nat)
    (hcomps : ∀ c ∈ componentsOf subg, ∀ x ∈ c, x ∈ sel₀) :
    ∀ x ∈ ensure_connectivity G subg sel₀ F maxN, x ∈ G.nodeIds →
      ∃ y, y ∈ sel₀ ∧ y ∈ G.nodeIds ∧
        Reach (inducedSubgraph G (ensure_connectivity G subg sel₀ F maxN)) x y := by
  have hbase : ∀ x ∈ sel₀, x ∈ G.nodeIds →
      ∃ y, y ∈ sel₀ ∧ y ∈ G.nodeIds ∧ Reach (inducedSubgraph G sel₀) x y := by
    intro x hx hxV
    exact ⟨x, hx, hxV, reach_refl (mem_induced_nodeIds.2 ⟨hxV, hx⟩)⟩
  unfold ensure_connectivity
  by_cases h1 : F = []
  · rw [if_pos h1]
    exact hbase
  · rw [if_neg h1]
    by_cases h2 : (componentsOf subg).length ≤ 1
    · rw [if_pos h2]
      exact hbase
    · rw [if_neg h2]
      by_cases h3 : F.filter (fun node => decide (node ∈ G.nodeIds)) = []
      · rw [if_pos h3]
        exact hbase
      · rw [if_neg h3]
        exact (stitch_inv hWF _ maxN _ sel₀ (componentsOf subg) sel₀
          (fun x hx => hx) hbase hcomps).2

end RepairInvariant

/-- Claim C5: the connectivity repair never increases the number of
connected components: the returned subgraph has at most as many components
as the induced subgraph on the pre-repair selection (stated under the
claim's unbounded-budget hypothesis, though the proof does not need it:
every stitched path prefix stays attached to an already selected node); and
components unreachable in the full graph from every focal node are simply
left disconnected — no node of the result ever becomes connected to a focal
node it cannot reach in the full graph — and the repair is a total function,
so no error is raised. -/
theorem C5_repair_reduces_component_count (gm : GM) (now : ℚ) (F : List String)
    (mh mn : Option Nat) (hWF : gm.graph.WF)
    (hbudget : (gm.graph.nodeIds.toFinset ∪ F.toFinset).card <
      pyOrNat mn gm.settings.MAX_GRAPH_NODES) :
    (componentsOf (build_contextual_subgraph gm now F mh mn)).length ≤
      (componentsOf (inducedSubgraph gm.graph
        (initialSelection gm now F (pyOrNat mh gm.settings.MAX_HOPS)
          (pyOrNat mn gm.settings.MAX_GRAPH_NODES)))).length ∧
    (∀ v f, v ∈ (build_contextual_subgraph gm now F mh mn).nodeIds → f ∈ F →
      ¬ Reach gm.graph v f →
      ¬ Reach (build_contextual_subgraph gm now F mh mn) v f) := by
  by_cases hg : gm.graph.nodes.length = 0
  · constructor
    · unfold build_contextual_subgraph
      rw [if_pos hg]
      simp [componentsOf, emptyGraph, Graph.nodeIds]
    · intro v f hv _ _
      unfold build_contextual_subgraph at hv
      rw [if_pos hg] at hv
      cases hv
  · have hbuild := build_eq gm now F mh mn hg
    constructor
    · rw [hbuild]
      set sel₀ := initialSelection gm now F (pyOrNat mh gm.settings.MAX_HOPS)
        (pyOrNat mn gm.settings.MAX_GRAPH_NODES) with hsel₀
      set subg := inducedSubgraph gm.graph sel₀ with hsubg
      set selF := ensure_connectivity gm.graph subg sel₀ F
        (pyOrNat mn gm.settings.MAX_GRAPH_NODES) with hselF
      have hcomps : ∀ c ∈ componentsOf subg, ∀ x ∈ c, x ∈ sel₀ := by
        intro c hc x hx
        exact (mem_induced_nodeIds.1 (mem_comp_subset hc x hx)).2
      have hsub : sel₀ ⊆ selF := ensure_superset _ _ _ _ _
      apply comp_count_le (induced_WF hWF sel₀) (induced_WF hWF selF)
      · intro x hx
        rw [mem_induced_nodeIds] at hx ⊢
        exact ⟨hx.1, hsub hx.2⟩
      · intro u v ha
        exact induced_adj_le (fun z hz => hsub hz) ha
      · intro x hx
        rw [mem_induced_nodeIds] at hx
        obtain ⟨y, h1, h2, h3⟩ := ensure_inv hWF subg sel₀ F
          (pyOrNat mn gm.settings.MAX_GRAPH_NODES) hcomps x hx.2 hx.1
        exact ⟨y, mem_induced_nodeIds.2 ⟨h2, h1⟩, h3⟩
    · intro v f _ _ hnreach hreach
      apply hnreach
      rw [hbuild] at hreach
      exact reach_induced_to_base hreach

theorem C5_witness :
    (componentsOf (build_contextual_subgraph gmAB 0 ["A"] none (some 50))).length ≤
      (componentsOf (inducedSubgraph gmAB.graph
        (initialSelection gmAB 0 ["A"] (pyOrNat none gmAB.settings.MAX_HOPS)
          (pyOrNat (some 50) gmAB.settings.MAX_GRAPH_NODES)))).length ∧
    (∀ v f, v ∈ (build_contextual_subgraph gmAB 0 ["A"] none (some 50)).nodeIds →
      f ∈ ["A"] → ¬ Reach gmAB.graph v f →
      ¬ Reach (build_contextual_subgraph gmAB 0 ["A"] none (some 50)) v f) :=
  C5_repair_reduces_component_count gmAB 0 ["A"] none (some 50) (by decide) (by decide)

end GraphMgr
